import Mathlib

set_option maxHeartbeats 1000000

namespace Kernel

/-! Shallow embedding of the libfive expression-tape core
(src/libfive/src/eval/tape.cpp) and of the decision logic of the simplex
tree build (src/libfive/src/render/brep/simplex/simplex_tree.cpp).
Machine doubles are modelled as rationals; external collaborators
(evaluators, QEF solver, neighbor tables) are modelled as parameters or,
where noted, from the spec. -/

/-- Opcode enumeration (the subset of Opcode::Opcode that the tape code
distinguishes; all other arithmetic ops behave like ADD here). -/
inductive Opcode where
  | VAR_X | VAR_Y | VAR_Z | VAR_FREE | CONSTANT | ORACLE
  | ADD | SUB | MUL | DIV | MIN | MAX | NEG | ABS | SQRT | SIN | COS
  deriving DecidableEq, Repr

/-- Tape::hasDummyChildren (tape.cpp:283-288): CONSTANT, VAR_FREE and ORACLE
store payload indices in their child fields. -/
def hasDummyChildren : Opcode → Bool
  | .CONSTANT => true
  | .VAR_FREE => true
  | .ORACLE => true
  | _ => false

/-- Clause: the 4-tuple (op, id, a, b) of tape.cpp / Clause record. -/
structure Clause where
  op : Opcode
  id : Nat
  a : Nat
  b : Nat
  deriving DecidableEq, Repr

instance : Inhabited Clause := ⟨⟨.VAR_X, 0, 0, 0⟩⟩

/-- Keep classification returned by the push classifier (Tape::Keep). -/
inductive Keep where
  | KEEP_A | KEEP_B | KEEP_BOTH | KEEP_ALWAYS
  deriving DecidableEq, Repr

/-- Subtape type tag (Tape::Type). -/
inductive TapeType where
  | BASE | INTERVAL | SPECIALIZED
  deriving DecidableEq, Repr

/-- Subtape record.  Modelled from the spec: the Subtape struct lives in
libfive/eval/tape.hpp which is not under src/; per spec section 3 it holds the
clause sequence, a type tag, the region box, a slot map and a dummy counter
(0 on the base tape, used by push/pop in tape.cpp to coalesce dummy pushes). -/
structure Subtape where
  t : List Clause
  type : TapeType := .BASE
  dummy : Nat := 0
  m : List Nat := []
  X : ℚ × ℚ := (0, 0)
  Y : ℚ × ℚ := (0, 0)
  Z : ℚ × ℚ := (0, 0)
  deriving DecidableEq, Repr

instance : Inhabited Subtape := ⟨{ t := [] }⟩

/-- Axis-aligned box handed to Tape::push (Region<3>): lower/upper bound per
axis, doubles modelled as rationals. -/
structure Region where
  X : ℚ × ℚ := (0, 0)
  Y : ℚ × ℚ := (0, 0)
  Z : ℚ × ℚ := (0, 0)
  deriving DecidableEq, Repr

/-- Tape state: the append-only stack of subtapes, the cursor (an index into
`tapes`, standing for the list iterator `tape`), the clause count, and the
secondary tables filled by the constructor.  The scratch vectors `disabled`
and `remap` are reset at the start of every push (tape.cpp:160-161), so they
are modelled as push-local state. -/
structure Tape where
  tapes : List Subtape
  cursor : Nat
  numClauses : Nat
  constants : List ℚ := []
  vars : List Nat := []
  oracles : Nat := 0
  deriving DecidableEq, Repr

/-! ### Tape construction (Tape::Tape, tape.cpp:25-104) -/

/-- One node of the flattened input tree (`root.ordered()`): opcode, rank
(0 for leaves), constant value, and operand references given as positions in
the flat list (standing for the stable Tree::Id addresses; `none` is the null
pointer, mapped to clause id 0). -/
structure FlatNode where
  op : Opcode
  rank : Nat := 0
  value : ℚ := 0
  lhs : Option Nat := none
  rhs : Option Nat := none
  deriving DecidableEq, Repr

/-- Clause id of an operand reference: `ids.at(nullptr) = 0`, and the node at
flat position j received id j+1 (ids are handed out densely starting at 1). -/
def optId (o : Option Nat) : Nat :=
  match o with
  | none => 0
  | some j => j + 1

/-- Accumulator for the constructor walk: the provisional front-pushed clause
list, the number of ids handed out, and the three secondary tables. -/
structure BuildSt where
  tp : List Clause := []
  k : Nat := 0
  constants : List ℚ := []
  vars : List Nat := []
  oracles : Nat := 0

/-- One step of the constructor loop (tape.cpp:32-76): assign the next id and
push one clause at the front of the provisional list; constants, free
variables and oracles store a secondary-table index in field `a`. -/
def buildStep (st : BuildSt) (m : FlatNode) : BuildSt :=
  let id := st.k + 1
  if 0 < m.rank then
    { st with tp := ⟨m.op, id, optId m.lhs, optId m.rhs⟩ :: st.tp, k := id }
  else if m.op = .CONSTANT then
    { st with tp := ⟨m.op, id, st.constants.length, 0⟩ :: st.tp, k := id,
              constants := st.constants ++ [m.value] }
  else if m.op = .VAR_FREE then
    { st with tp := ⟨m.op, id, st.vars.length, 0⟩ :: st.tp, k := id,
              vars := st.vars ++ [st.k] }
  else if m.op = .ORACLE then
    { st with tp := ⟨m.op, id, st.oracles, 0⟩ :: st.tp, k := id,
              oracles := st.oracles + 1 }
  else
    { st with tp := ⟨m.op, id, 0, 0⟩ :: st.tp, k := id }

/-! ### Register allocation (Tape::assignSlots, tape.cpp:290-363) -/

/-- Association list of live ranges keyed by clause id: (id, first, second)
models the unordered_map `ranges` with value pair (first_use, last_use+1). -/
abbrev RangeMap := List (Nat × Nat × Nat)

/-- Lookup in the ranges map. -/
def rlookup (m : RangeMap) (k : Nat) : Option (Nat × Nat) :=
  match m with
  | [] => none
  | e :: es => if e.1 = k then some e.2 else rlookup es k

/-- `ranges.insert`: std::map insert does nothing when the key is present. -/
def rinsert (m : RangeMap) (k f s : Nat) : RangeMap :=
  if (rlookup m k).isSome then m else (k, f, s) :: m

/-- `itr->second.second = i + 1` on the entry with the given key (no-op when
the key is absent; the source asserts presence). -/
def rsetSecond (m : RangeMap) (k s : Nat) : RangeMap :=
  m.map fun e => if e.1 = k then (e.1, e.2.1, s) else e

/-- One step of the reverse walk that computes live ranges
(tape.cpp:295-310): insert (i, i+1) for the defining clause, then stretch
each operand's second component to i+1 (operands of dummy-children ops are
never treated as clause references). -/
def rangeStep (st : RangeMap × Nat) (c : Clause) : RangeMap × Nat :=
  let m := rinsert st.1 c.id st.2 (st.2 + 1)
  let m := if hasDummyChildren c.op then m
           else rsetSecond (rsetSecond m c.a (st.2 + 1)) c.b (st.2 + 1)
  (m, st.2 + 1)

/-- Live ranges of a clause list: reverse walk with the dummy entry
{0, (0,0)} pre-seeded (tape.cpp:294). -/
def rangesOf (t : List Clause) : RangeMap :=
  (t.reverse.foldl rangeStep ([(0, 0, 0)], 0)).1

/-- Register events: (position, bit, id) with bit 0 = DROP and bit 1 = LOAD,
so sorting by (position, bit) puts DROP before LOAD at equal positions,
matching the multimap key (position, RegOp) with DROP < LOAD. -/
def evLe (e1 e2 : Nat × Nat × Nat) : Bool :=
  decide (e1.1 < e2.1 ∨ (e1.1 = e2.1 ∧ e1.2.1 ≤ e2.2.1))

/-- The unsorted LOAD/DROP event pairs, one LOAD and one DROP per range
entry (tape.cpp:315-319). -/
def rawOf (m : RangeMap) : List (Nat × Nat × Nat) :=
  m.flatMap fun e => [(e.2.1, 1, e.1), (e.2.2, 0, e.1)]

/-- The sorted LOAD/DROP event tape built from the ranges (tape.cpp:312-319).
The source iterates an unordered_map into a multimap; the order among events
with equal (position, op) keys is unspecified there, and the embedding fixes
one such order. -/
def eventsOf (m : RangeMap) : List (Nat × Nat × Nat) :=
  (rawOf m).mergeSort evLe

/-- Lookup in an association list keyed by clause id. -/
def alookup (l : List (Nat × Nat)) (k : Nat) : Option Nat :=
  match l with
  | [] => none
  | e :: es => if e.1 = k then some e.2 else alookup es k

/-- Remove the entry with the given key (std::map::erase of the found
iterator; keys are unique). -/
def aremove (l : List (Nat × Nat)) (k : Nat) : List (Nat × Nat) :=
  l.filter fun e => decide (e.1 ≠ k)

/-- Allocator state: `active` and `assigned` model the two std::maps from
clause id to slot, `inactive` the std::set of free slots. -/
structure AllocSt where
  active : List (Nat × Nat) := []
  assigned : List (Nat × Nat) := []
  inactive : Finset ℕ := ∅

/-- One step of the LOAD/DROP walk (tape.cpp:325-357): skip the dummy id 0;
on DROP move the clause's slot to the free set; on LOAD take the smallest
free slot, or grow the register file (`chosen = active.size()`) when the
free set is empty. -/
def allocStep (st : AllocSt) (e : Nat × Nat × Nat) : AllocSt :=
  let k := e.2.2
  if k = 0 then st
  else if e.2.1 = 0 then
    match alookup st.active k with
    | some slot => { st with active := aremove st.active k,
                             inactive := insert slot st.inactive }
    | none => st
  else if h : st.inactive.Nonempty then
    { st with active := (k, st.inactive.min' h) :: st.active,
              assigned := (k, st.inactive.min' h) :: st.assigned,
              inactive := st.inactive.erase (st.inactive.min' h) }
  else
    { st with active := (k, st.active.length) :: st.active,
              assigned := (k, st.active.length) :: st.assigned }

/-- Run the whole allocator on a clause list. -/
def allocRun (t : List Clause) : AllocSt :=
  (eventsOf (rangesOf t)).foldl allocStep {}

/-- The slot assigned to clause id k (tape->m.at(k); unassigned ids keep the
zero-initialized slot from the resize). -/
def slotOf (t : List Clause) (k : Nat) : Nat :=
  (alookup (allocRun t).assigned k).getD 0

/-- The slot map vector written onto the Subtape (tape.cpp:358-362). -/
def assignSlots (t : List Clause) (numClauses : Nat) : List Nat :=
  (List.range numClauses).map fun k => slotOf t k

/-- The live range of clause id k as computed by assignSlots. -/
def rangeOf (t : List Clause) (k : Nat) : Nat × Nat :=
  (rlookup (rangesOf t) k).getD (0, 0)

/-- Two half-open ranges [f1, s1) and [f2, s2) intersect. -/
def rangesOverlap (r1 r2 : Nat × Nat) : Prop :=
  r1.1 < r2.2 ∧ r2.1 < r1.2

/-- Clause ids currently holding a register (keys of `active`). -/
def activeKeys (st : AllocSt) : List Nat :=
  st.active.map Prod.fst

/-- Registers currently held (values of `active`). -/
def activeSlots (st : AllocSt) : List Nat :=
  st.active.map Prod.snd

/-- Allocator data invariant: `active` binds distinct clause ids to distinct
slots, held slots are never simultaneously free, and the held and free slots
together are exactly the registers allocated so far (0 .. |active|+|inactive|).
-/
def InvA (st : AllocSt) : Prop :=
  (activeKeys st).Nodup ∧ (activeSlots st).Nodup ∧
  (∀ s ∈ activeSlots st, s ∉ st.inactive) ∧
  (activeSlots st).toFinset ∪ st.inactive =
    Finset.range (st.active.length + st.inactive.card)

/-- The clause ids of the LOAD events of an event list, in order. -/
def loadKeys (l : List (Nat × Nat × Nat)) : List Nat :=
  (l.filter fun e => decide (e.2.1 ≠ 0)).map fun e => e.2.2

/-- Tape::Tape (tape.cpp:25-104): flatten the ordered node list into a
front-pushed clause list, materialize the single base Subtape, store the
clause count, and run the register allocator on it. -/
def buildTape (flat : List FlatNode) : Tape :=
  let st := flat.foldl buildStep {}
  let n := flat.length + 1
  { tapes := [{ t := st.tp, type := .BASE, dummy := 0, m := assignSlots st.tp n }],
    cursor := 0,
    numClauses := n,
    constants := st.constants,
    vars := st.vars,
    oracles := st.oracles }

/-! ### Tape push / pop (tape.cpp:106-118 and 146-257) -/

/-- Scratch state of the push classifier walk: the `disabled` and `remap`
arrays plus the has_choices flag. -/
structure PushScan where
  disabled : List Bool
  remap : List Nat
  hasChoices : Bool

/-- disabled[x] with the out-of-range default `true`. -/
def dis (s : PushScan) (x : Nat) : Bool := s.disabled.getD x true

/-- remap[x] with the out-of-range default 0. -/
def rm (s : PushScan) (x : Nat) : Nat := s.remap.getD x 0

/-- One iteration of the forward classifier walk (tape.cpp:168-199). -/
def pushStep (fn : Opcode → Nat → Nat → Nat → Keep) (s : PushScan) (c : Clause) :
    PushScan :=
  if s.disabled.getD c.id true then s
  else
    let s1 :=
      match fn c.op c.id c.a c.b with
      | .KEEP_A => { s with disabled := s.disabled.set c.a false,
                            remap := s.remap.set c.id c.a }
      | .KEEP_B => { s with disabled := s.disabled.set c.b false,
                            remap := s.remap.set c.id c.b }
      | .KEEP_BOTH => { s with hasChoices := true }
      | .KEEP_ALWAYS => s
    if s1.remap.getD c.id 0 ≠ 0 then
      { s1 with disabled := s1.disabled.set c.id true }
    else if hasDummyChildren c.op then s1
    else
      { s1 with disabled := (s1.disabled.set c.a false).set c.b false }

/-- The classifier walk over a clause list. -/
def scanList (fn : Opcode → Nat → Nat → Nat → Keep) :
    PushScan → List Clause → PushScan
  | s, [] => s
  | s, c :: cs => scanList fn (pushStep fn s c) cs

/-- Initial scratch state of a push (tape.cpp:160-165): everything disabled,
remaps cleared, the root (the first clause) marked active. -/
def initScan (len : Nat) (t : List Clause) : PushScan :=
  { disabled := (List.replicate len true).set (t.headD default).id false,
    remap := List.replicate len 0,
    hasChoices := false }

/-- The remap chain `for (ra = c.a; remap[ra]; ra = remap[ra])`
(tape.cpp:241-242), with explicit fuel.  The chain-termination theorem below
shows that under the push invariant the chain is strictly decreasing, so fuel
equal to the start value always suffices; the emission uses exactly that. -/
def remapChain (remap : List Nat) : Nat → Nat → Nat
  | 0, x => x
  | fuel + 1, x =>
    if remap.getD x 0 = 0 then x else remapChain remap fuel (remap.getD x 0)

/-- Emission of the new subtape (tape.cpp:227-246): keep enabled clauses in
order, push ORACLE clauses unchanged, rewrite other operand fields through
the remap chain. -/
def pushEmit (s : PushScan) (prev : List Clause) : List Clause :=
  prev.filterMap fun c =>
    if s.disabled.getD c.id true then none
    else if c.op = .ORACLE then some c
    else some { c with a := remapChain s.remap c.a c.a,
                       b := remapChain s.remap c.b c.b }

/-- Tape::push (tape.cpp:146-257).  A push on a dummy tape only bumps the
counter.  Otherwise run the classifier walk, advance the cursor (reusing an
existing stack slot, clearing only its clause list and resetting type, dummy
and bounds, or appending a fresh Subtape; never shrinking), and emit the
remapped clause list into it. -/
def Tape.push (tp : Tape) (fn : Opcode → Nat → Nat → Nat → Keep)
    (ty : TapeType) (r : Region) : Tape :=
  let cur := tp.tapes.getD tp.cursor default
  if cur.dummy ≠ 0 then
    { tp with tapes := tp.tapes.set tp.cursor { cur with dummy := cur.dummy + 1 } }
  else
    let scan := scanList fn (initScan tp.numClauses cur.t) cur.t
    let newT := pushEmit scan cur.t
    let newDummy := if scan.hasChoices then 0 else 1
    if tp.cursor + 1 < tp.tapes.length then
      let old := tp.tapes.getD (tp.cursor + 1) default
      { tp with
        tapes := tp.tapes.set (tp.cursor + 1)
          { old with t := newT, type := ty, dummy := newDummy,
                     X := r.X, Y := r.Y, Z := r.Z },
        cursor := tp.cursor + 1 }
    else
      { tp with
        tapes := tp.tapes ++ [{ t := newT, type := ty, dummy := newDummy,
                                m := [], X := r.X, Y := r.Y, Z := r.Z }],
        cursor := tp.cursor + 1 }

/-- Tape::pop (tape.cpp:106-118): decrement the dummy counter when it is
above 1, otherwise move the cursor back one subtape. -/
def Tape.pop (tp : Tape) : Tape :=
  let cur := tp.tapes.getD tp.cursor default
  if 1 < cur.dummy then
    { tp with tapes := tp.tapes.set tp.cursor { cur with dummy := cur.dummy - 1 } }
  else
    { tp with cursor := tp.cursor - 1 }

/-! ### Push/pop sequences (for the stack-growth bound) -/

/-- One operation applied to a tape: a push with its classifier, type and
region, or a pop. -/
inductive TapeOp where
  | push (fn : Opcode → Nat → Nat → Nat → Keep) (ty : TapeType) (r : Region)
  | pop

/-- Apply one operation. -/
def runOp (tp : Tape) : TapeOp → Tape
  | .push fn ty r => tp.push fn ty r
  | .pop => tp.pop

/-- Apply a sequence of operations. -/
def runOps (tp : Tape) (ops : List TapeOp) : Tape :=
  ops.foldl runOp tp

/-- A sequence is legal when no pop occurs at nesting depth 0 (pop asserts
that the cursor is not at the base). -/
def legalB : Nat → List TapeOp → Bool
  | _, [] => true
  | d, .push _ _ _ :: rest => legalB (d + 1) rest
  | d, .pop :: rest => if d = 0 then false else legalB (d - 1) rest

/-- Maximum nesting depth reached by a sequence, starting from depth d. -/
def maxDepthB : Nat → Nat → List TapeOp → Nat
  | _, mx, [] => mx
  | d, mx, .push _ _ _ :: rest => maxDepthB (d + 1) (max mx (d + 1)) rest
  | d, mx, .pop :: rest => maxDepthB (d - 1) mx rest

/-! ### Tape::Handle (tape.cpp:368-392) -/

/-- Handle disposal type. -/
inductive HType where
  | NONE | BASE | PUSH
  deriving DecidableEq, Repr

/-- A scoped tape handle: its disposal type and, for BASE handles, the saved
previous cursor. -/
structure Handle where
  htype : HType
  prev : Nat := 0
  deriving DecidableEq, Repr

/-- Handle destructor (tape.cpp:368-376): NONE does nothing, BASE restores
the saved cursor, PUSH calls pop. -/
def handleDestroy (tp : Tape) (h : Handle) : Tape :=
  match h.htype with
  | .NONE => tp
  | .BASE => { tp with cursor := h.prev }
  | .PUSH => tp.pop

/-- Handle move construction / move assignment (tape.cpp:378-392): the
destination takes the source's fields wholesale and the source's type is set
to NONE (its prev field is left as is).  The old contents of the assignment
destination are overwritten without being disposed, so the first component is
independent of `dst`. -/
def handleMoveAssign (_dst src : Handle) : Handle × Handle :=
  (⟨src.htype, src.prev⟩, ⟨.NONE, src.prev⟩)

/-! ### Tape well-formedness (established by the constructor, preserved by
push) -/

/-- An operand reference o of a clause with id i is the null sentinel or the
id of a clause with a strictly smaller id that occurs in the tape. -/
def opOk (ids : List Nat) (i o : Nat) : Prop :=
  o = 0 ∨ (o < i ∧ o ∈ ids)

/-- Well-formed subtape clause list: ids strictly decrease along the forward
walk (root first, reverse topological order), every id is nonzero, and every
operand of a non-dummy-children op points at a strictly smaller id occurring
in the list. -/
def WfT (t : List Clause) : Prop :=
  (t.map Clause.id).Pairwise (fun x y => y < x) ∧
  ∀ c ∈ t, 1 ≤ c.id ∧
    (hasDummyChildren c.op = false →
      opOk (t.map Clause.id) c.id c.a ∧ opOk (t.map Clause.id) c.id c.b)

/-- The documented classifier contract (tape.cpp:189-193): on oracle, var and
constant clauses the classifier returns KEEP_BOTH or KEEP_ALWAYS, never
KEEP_A / KEEP_B. -/
def FnContract (fn : Opcode → Nat → Nat → Nat → Keep) : Prop :=
  ∀ op i a b, hasDummyChildren op = true →
    fn op i a b = .KEEP_BOTH ∨ fn op i a b = .KEEP_ALWAYS

/-- All pushes of a sequence satisfy the classifier contract. -/
def OpsContract (ops : List TapeOp) : Prop :=
  ∀ o ∈ ops, match o with
    | TapeOp.push fn _ _ => FnContract fn
    | TapeOp.pop => True

/-- Topological well-formedness of the constructor input: every operand
reference points at an earlier position of the flat list (root.ordered()
returns operands before their users; ids.at would throw otherwise). -/
instance : Inhabited FlatNode := ⟨{ op := .VAR_X }⟩

def TopoFlat (flat : List FlatNode) : Prop :=
  ∀ p < flat.length,
    (match (flat.getD p default).lhs with
     | some j => j < p
     | none => True) ∧
    (match (flat.getD p default).rhs with
     | some j => j < p
     | none => True)

/-- The claimed (spec section 3 / section 8) operand-order property on a
clause list: every nonzero operand of a non-dummy-children clause appears as
the id of an EARLIER clause in the forward walk. -/
def operandsEarlier (t : List Clause) : Prop :=
  ∀ i < t.length,
    hasDummyChildren (t.getD i default).op = false →
      ((t.getD i default).a = 0 ∨
        ∃ j < i, (t.getD j default).id = (t.getD i default).a) ∧
      ((t.getD i default).b = 0 ∨
        ∃ j < i, (t.getD j default).id = (t.getD i default).b)

/-- The actual operand-order property: every nonzero operand of a
non-dummy-children clause appears as the id of a LATER clause in the forward
walk (equivalently, earlier in the reverse evaluation walk). -/
def operandsLater (t : List Clause) : Prop :=
  ∀ i < t.length,
    hasDummyChildren (t.getD i default).op = false →
      ((t.getD i default).a = 0 ∨
        ∃ j, i < j ∧ j < t.length ∧ (t.getD j default).id = (t.getD i default).a) ∧
      ((t.getD i default).b = 0 ∨
        ∃ j, i < j ∧ j < t.length ∧ (t.getD j default).id = (t.getD i default).b)

/-! ### Simplex tree decision logic (simplex_tree.cpp) -/

/-- Interval::State of a cell (UNKNOWN, EMPTY, FILLED, AMBIGUOUS). -/
inductive CellType where
  | UNKNOWN | EMPTY | FILLED | AMBIGUOUS
  deriving DecidableEq, Repr

/-- A closed rational interval standing for the interval evaluator output. -/
structure QInterval where
  lo : ℚ
  hi : ℚ
  deriving DecidableEq, Repr

/-- Modelled from the spec: Interval::state (libfive/eval/interval.hpp, not
under src/) classifies a wholly positive interval as EMPTY, a wholly negative
one as FILLED, anything else as AMBIGUOUS (spec section 4.6). -/
def intervalState (i : QInterval) : CellType :=
  if i.hi < 0 then .FILLED else if 0 < i.lo then .EMPTY else .AMBIGUOUS

/-- SimplexTree::evalInterval (simplex_tree.cpp:175-205), with the interval
evaluator abstracted: `o` is the (interval, pushed-handle) pair returned by
evalAndPush, `safe` its isSafe() flag, `tape` the caller's original handle.
Returns the cell type, the handle handed on for recursion, and whether the
cell was finished as a leaf here.  The handle type is an arbitrary type
parameter, so the returned handle is literally one of the two inputs. -/
def evalInterval {H : Type} (o : QInterval × H) (safe : Bool) (tape : H) :
    CellType × H × Bool :=
  let ty0 := intervalState o.1
  let ty := if safe then ty0 else .AMBIGUOUS
  let h := if safe then o.2 else tape
  (ty, h, decide (ty = .FILLED) || decide (ty = .EMPTY))

/-- A child cell as seen by collectChildren: whether it is still a branch,
and its interval type. -/
structure ChildCell where
  isBranch : Bool
  ctype : CellType
  deriving DecidableEq, Repr

/-- Observable outcome of SimplexTree::collectChildren. -/
structure CollectOut where
  performed : Bool
  isBranch : Bool
  leafAllocated : Bool
  leafReleased : Bool
  childrenReleased : Bool
  signsSaved : Bool
  signsChecked : Bool
  ctype : CellType
  deriving DecidableEq, Repr

/-- SimplexTree::collectChildren (simplex_tree.cpp:337-519) decision logic.
`pending` is the value of the atomic counter before the decrement (only the
last arriving sibling, pending = 0, performs the merge); `solveErr` abstracts
the maximum residual error returned by the unrolled QEF pass (the QEF solver
lives outside src/).  In the EMPTY/FILLED and the committed AMBIGUOUS paths
the `ctype` field is the type before any checkVertexSigns upgrade. -/
def collectChildren (pending : Nat) (cs : List ChildCell)
    (solveErr maxErr : ℚ) : CollectOut :=
  if pending ≠ 0 then
    ⟨false, true, false, false, false, false, false, .UNKNOWN⟩
  else if cs.any (·.isBranch) then
    ⟨true, true, false, false, false, false, false, .UNKNOWN⟩
  else
    let allEmpty := cs.all fun c => decide (c.ctype = .EMPTY)
    let allFull := cs.all fun c => decide (c.ctype = .FILLED)
    let ty : CellType := if allEmpty then .EMPTY
                         else if allFull then .FILLED else .AMBIGUOUS
    if ty = .EMPTY ∨ ty = .FILLED then
      ⟨true, false, true, false, true, false, false, ty⟩
    else if solveErr < maxErr then
      ⟨true, false, true, false, true, true, true, ty⟩
    else
      ⟨true, true, true, true, false, false, false, ty⟩

/-- The claim's reading of collectChildren: whenever the merge is performed
and no child is a branch, the error test decides between commit (children
released) and reject (parent leaf released, children kept). -/
def claimC7 (pending : Nat) (cs : List ChildCell) (solveErr maxErr : ℚ) : Prop :=
  let out := collectChildren pending cs solveErr maxErr
  pending = 0 → cs.any (·.isBranch) = false →
    (solveErr < maxErr →
      out.childrenReleased = true ∧ out.isBranch = false) ∧
    (¬ solveErr < maxErr →
      out.leafReleased = true ∧ out.childrenReleased = false ∧
      out.isBranch = true)

/-- Sign assignment of findLeafVertices (simplex_tree.cpp:299-309): an
AMBIGUOUS cell takes the signs computed by saveVertexSigns (abstracted as the
input list, since the evaluators live outside src/); a pure cell sets every
subspace's inside flag to (type == FILLED). -/
def setLeafSigns (ty : CellType) (subs : List Bool) (ambigSigns : List Bool) :
    List Bool :=
  if ty = .AMBIGUOUS then ambigSigns
  else subs.map fun _ => decide (ty = .FILLED)

/-- SimplexTree::checkVertexSigns (simplex_tree.cpp:555-578): upgrade to
FILLED when every subspace vertex is inside, to EMPTY when every one is
outside, else AMBIGUOUS. -/
def checkVertexSigns (subs : List Bool) : CellType :=
  let allInside := subs.all fun s => s
  let allOutside := subs.all fun s => !s
  if allInside then .FILLED
  else if allOutside then .EMPTY
  else .AMBIGUOUS

/-! ### Global index assignment (SimplexTree::assignIndices,
simplex_tree.cpp:599-710) -/

/-- A simplex tree for the index-assignment pass: a branch with its children,
or a leaf listing one entry per subspace.  Modelled from the spec: the
neighbor and ancestor index lookups go through SimplexNeighbors (not under
src/); per spec section 4.9 each lookup either yields an already-assigned
nonzero index or fails, so each leaf entry carries the combined lookup
outcome, 0 meaning that no reuse is possible (`if (n)` treats 0 as absent). -/
inductive SNode where
  | leaf (subs : List Nat)
  | branch (children : List SNode)

/-- Assign the subspaces of one leaf: reuse a nonzero lookup result, else
take a fresh index from the counter (simplex_tree.cpp:630-708). -/
def assignSubs : List Nat → Nat → List Nat × Nat
  | [], c => ([], c)
  | r :: rs, c =>
    if r ≠ 0 then
      let p := assignSubs rs c
      (r :: p.1, p.2)
    else
      let p := assignSubs rs (c + 1)
      (c :: p.1, p.2)

mutual

/-- DFS of assignIndices: thread the global counter through the tree,
returning the tree with assigned indices. -/
def assignNode : SNode → Nat → SNode × Nat
  | .leaf subs, c =>
    let p := assignSubs subs c
    (.leaf p.1, p.2)
  | .branch cs, c =>
    let p := assignChildren cs c
    (.branch p.1, p.2)

/-- Recurse over the children in order. -/
def assignChildren : List SNode → Nat → List SNode × Nat
  | [], c => ([], c)
  | t :: ts, c =>
    let p := assignNode t c
    let q := assignChildren ts p.2
    (p.1 :: q.1, q.2)

end

/-- Top-level assignIndices (simplex_tree.cpp:599-608): the counter starts
at 1. -/
def assignIndices (t : SNode) : SNode × Nat :=
  assignNode t 1

/-- The indices freshly allocated from the counter while assigning one leaf:
those positions whose lookup result was 0. -/
def freshSubs : List Nat → Nat → List Nat
  | [], _ => []
  | r :: rs, c =>
    if r ≠ 0 then freshSubs rs c else c :: freshSubs rs (c + 1)

mutual

/-- All fresh indices allocated in a tree walk starting at counter c. -/
def freshNode : SNode → Nat → List Nat
  | .leaf subs, c => freshSubs subs c
  | .branch cs, c => freshChildren cs c

/-- All fresh indices allocated over a child list starting at counter c. -/
def freshChildren : List SNode → Nat → List Nat
  | [], _ => []
  | t :: ts, c => freshNode t c ++ freshChildren ts (assignNode t c).2

end

mutual

/-- All indices stored in the leaves of an assigned tree. -/
def allIndices : SNode → List Nat
  | .leaf subs => subs
  | .branch cs => allIndicesList cs

/-- All indices stored in the leaves of a forest. -/
def allIndicesList : List SNode → List Nat
  | [] => []
  | t :: ts => allIndices t ++ allIndicesList ts

end

/-! ### Concrete inputs for witnesses and counterexamples -/

/-- A three-node input tree f = X + Y, in topological order. -/
def demoFlat : List FlatNode :=
  [{ op := .VAR_X }, { op := .VAR_Y },
   { op := .ADD, rank := 1, lhs := some 0, rhs := some 1 }]

/-- Its base tape. -/
def demoTape : Tape := buildTape demoFlat

/-- A classifier that keeps everything unconditionally (no KEEP_BOTH). -/
def keepAlwaysFn : Opcode → Nat → Nat → Nat → Keep := fun _ _ _ _ => .KEEP_ALWAYS

/-- A classifier that always reports a choice. -/
def keepBothFn : Opcode → Nat → Nat → Nat → Keep := fun _ _ _ _ => .KEEP_BOTH

/-- A unit demo region. -/
def demoRegion : Region := { X := (0, 1), Y := (0, 1), Z := (0, 1) }

/-- The claim's reading of a no-choice push: when the classifier walk
produces no KEEP_BOTH, the dummy counter is set to 1 INSTEAD of
materializing a new clause sequence, i.e. the stack of clause sequences is
left as it was. -/
def claimC3 (tp : Tape) (fn : Opcode → Nat → Nat → Nat → Keep)
    (ty : TapeType) (r : Region) : Prop :=
  (scanList fn (initScan tp.numClauses (tp.tapes.getD tp.cursor default).t)
      (tp.tapes.getD tp.cursor default).t).hasChoices = false →
    (tp.push fn ty r).tapes.map Subtape.t = tp.tapes.map Subtape.t ∧
    ((tp.push fn ty r).tapes.getD (tp.push fn ty r).cursor default).dummy = 1

/-- Per-clause well-formedness relative to a universe U of clause ids and the
scratch-array length L: the id is nonzero, occurs in U, is within the scratch
arrays, and (for non-dummy-children ops) both operands are null or smaller
ids occurring in U. -/
def ClauseOkU (U : List Nat) (L : Nat) (c : Clause) : Prop :=
  1 ≤ c.id ∧ c.id ∈ U ∧ c.id < L ∧
  (hasDummyChildren c.op = false →
    (c.a = 0 ∨ (c.a < c.id ∧ c.a ∈ U)) ∧ (c.b = 0 ∨ (c.b < c.id ∧ c.b ∈ U)))

/-- Invariant bundle of the classifier walk: array lengths; remap entries are
0 or strictly decreasing; a remapped clause is disabled; a remap target is
enabled or itself remapped (so chains stay alive); remapped ids are above
every id still to be visited; and enabled entries are 0 or ids of the
universe. -/
def StInv (L : Nat) (U : List Nat) (rest : List Clause) (s : PushScan) : Prop :=
  s.disabled.length = L ∧ s.remap.length = L ∧
  (∀ x, rm s x = 0 ∨ rm s x < x) ∧
  (∀ x, rm s x ≠ 0 → dis s x = true) ∧
  (∀ x, rm s x ≠ 0 → (dis s (rm s x) = false ∨ rm s (rm s x) ≠ 0)) ∧
  (∀ x, rm s x ≠ 0 → ∀ c ∈ rest, c.id < x) ∧
  (∀ x, dis s x = false → x = 0 ∨ x ∈ U)

/-- Tape-level well-formedness: every subtape on the stack is well-formed
and all its ids are below num_clauses (the scratch-array size). -/
def TapeWf (tp : Tape) : Prop :=
  ∀ sub ∈ tp.tapes, WfT sub.t ∧ ∀ c ∈ sub.t, c.id < tp.numClauses

/-- Cursor well-formedness of a tape state, established by the constructor
and preserved by push/pop: the cursor is in range, every subtape strictly
below the cursor has a zero dummy counter (its push advanced the cursor, so
it was not a dummy), and the base subtape's counter is zero. -/
def WfCursor (tp : Tape) : Prop :=
  tp.cursor < tp.tapes.length ∧
  (∀ i < tp.cursor, (tp.tapes.getD i default).dummy = 0) ∧
  (tp.tapes.getD 0 default).dummy = 0

/-- Logical nesting depth of a tape state: the cursor position plus the
pushes coalesced into the current subtape's dummy counter. -/
def depthOf (tp : Tape) : Nat :=
  tp.cursor + ((tp.tapes.getD tp.cursor default).dummy - 1)

/-- Net nesting depth after a sequence of operations, starting from d. -/
def netDepthB : Nat → List TapeOp → Nat
  | d, [] => d
  | d, .push _ _ _ :: rest => netDepthB (d + 1) rest
  | d, .pop :: rest => netDepthB (d - 1) rest

/-! ## Theorems -/

/-! ### List helpers -/

theorem getD_set_self {α : Type} (l : List α) (n : Nat) (v d : α)
    (h : n < l.length) : (l.set n v).getD n d = v := by
  simp [List.getD_eq_getElem?_getD, List.getElem?_set_self, h,
        List.getElem?_eq_getElem]

theorem getD_set_ne {α : Type} (l : List α) (m n : Nat) (v d : α)
    (h : m ≠ n) : (l.set n v).getD m d = l.getD m d := by
  simp [List.getD_eq_getElem?_getD, List.getElem?_set_ne (Ne.symm h)]

theorem getD_append_left {α : Type} (l l2 : List α) (n : Nat) (d : α)
    (h : n < l.length) : (l ++ l2).getD n d = l.getD n d := by
  simp [List.getD_eq_getElem?_getD, List.getElem?_append_left h]

theorem getD_append_self {α : Type} (l : List α) (x d : α) :
    (l ++ [x]).getD l.length d = x := by
  simp [List.getD_eq_getElem?_getD]

/-! ### C4: Handle disposal and move semantics -/

/-- C4: every Handle performs exactly one disposal: NONE does nothing, BASE
restores the saved cursor, PUSH pops exactly once; move-assignment transfers
the disposal to the destination and leaves the source as NONE, so after
moving a PUSH handle the destination's destruction pops exactly once and the
source's destruction does nothing. -/
theorem handle_move_disposal (tp : Tape) (dst h : Handle) :
    (h.htype = .NONE → handleDestroy tp h = tp) ∧
    (h.htype = .BASE → handleDestroy tp h = { tp with cursor := h.prev }) ∧
    (h.htype = .PUSH → handleDestroy tp h = tp.pop) ∧
    (handleMoveAssign dst h).2.htype = .NONE ∧
    handleDestroy tp (handleMoveAssign dst h).1 = handleDestroy tp h ∧
    handleDestroy tp (handleMoveAssign dst h).2 = tp ∧
    (h.htype = .PUSH → handleDestroy tp (handleMoveAssign dst h).1 = tp.pop) := by
  refine ⟨fun he => ?_, fun he => ?_, fun he => ?_, rfl, ?_, rfl, fun he => ?_⟩ <;>
    simp [handleDestroy, handleMoveAssign, *]

/-- Witness for C4 at a concrete PUSH handle. -/
theorem handle_move_disposal_witness :
    handleDestroy demoTape (handleMoveAssign ⟨.BASE, 5⟩ ⟨.PUSH, 0⟩).1 =
      demoTape.pop :=
  (handle_move_disposal demoTape ⟨.BASE, 5⟩ ⟨.PUSH, 0⟩).2.2.2.2.2.2 rfl

/-! ### C6: unsafe interval evaluation -/

/-- C6: when the interval evaluation was not numerically safe, evalInterval
forces the cell type to AMBIGUOUS regardless of the computed interval, hands
the caller's original tape handle back (the pushed tape is not kept), and
does not finish the cell as a leaf, so the build continues by subdivision;
the function returns normally, surfacing no error. -/
theorem evalInterval_unsafe_ambiguous {H : Type} (o : QInterval × H)
    (tape : H) (safe : Bool) (hs : safe = false) :
    evalInterval o safe tape = (.AMBIGUOUS, tape, false) := by
  subst hs; rfl

/-- Witness for C6 on a concrete, wholly-positive interval. -/
theorem evalInterval_unsafe_ambiguous_witness :
    evalInterval ((⟨1, 2⟩ : QInterval), (7 : Nat)) false 9 =
      (.AMBIGUOUS, 9, false) :=
  evalInterval_unsafe_ambiguous (⟨1, 2⟩, 7) 9 false rfl

/-! ### C8: pure cells have uniform inside flags -/

/-- C8: a cell typed EMPTY or FILLED gets uniform inside flags from
findLeafVertices (all false for EMPTY, all true for FILLED), and
checkVertexSigns upgrades to EMPTY or FILLED only when every subspace
vertex agrees. -/
theorem pure_cell_signs_agree (ty : CellType) (subs ambigSigns : List Bool) :
    (ty = .EMPTY → ∀ b ∈ setLeafSigns ty subs ambigSigns, b = false) ∧
    (ty = .FILLED → ∀ b ∈ setLeafSigns ty subs ambigSigns, b = true) ∧
    (checkVertexSigns subs = .FILLED → ∀ b ∈ subs, b = true) ∧
    (checkVertexSigns subs = .EMPTY → ∀ b ∈ subs, b = false) ∧
    (checkVertexSigns subs = .FILLED ∨ checkVertexSigns subs = .EMPTY →
      (∀ b ∈ subs, b = true) ∨ (∀ b ∈ subs, b = false)) := by
  have hFill : checkVertexSigns subs = .FILLED → ∀ b ∈ subs, b = true := by
    intro hc b hb
    by_cases hall : subs.all (fun s => s) = true
    · exact List.all_eq_true.mp hall b hb
    · exfalso
      simp only [checkVertexSigns] at hc
      rw [if_neg hall] at hc
      by_cases hout : subs.all (fun s => !s) = true
      · rw [if_pos hout] at hc; exact CellType.noConfusion hc
      · rw [if_neg hout] at hc; exact CellType.noConfusion hc
  have hEmpt : checkVertexSigns subs = .EMPTY → ∀ b ∈ subs, b = false := by
    intro hc b hb
    by_cases hout : subs.all (fun s => !s) = true
    · have := List.all_eq_true.mp hout b hb
      simpa using this
    · exfalso
      simp only [checkVertexSigns] at hc
      by_cases hall : subs.all (fun s => s) = true
      · rw [if_pos hall] at hc; exact CellType.noConfusion hc
      · rw [if_neg hall, if_neg hout] at hc; exact CellType.noConfusion hc
  refine ⟨fun he => ?_, fun he => ?_, hFill, hEmpt, fun hc => ?_⟩
  · subst he; intro b hb
    simp only [setLeafSigns] at hb
    rw [if_neg (by decide : ¬ (CellType.EMPTY = CellType.AMBIGUOUS))] at hb
    rcases List.mem_map.mp hb with ⟨x, _, hx⟩
    exact hx.symm
  · subst he; intro b hb
    simp only [setLeafSigns] at hb
    rw [if_neg (by decide : ¬ (CellType.FILLED = CellType.AMBIGUOUS))] at hb
    rcases List.mem_map.mp hb with ⟨x, _, hx⟩
    exact hx.symm
  · rcases hc with hc | hc
    · exact Or.inl (hFill hc)
    · exact Or.inr (hEmpt hc)

/-- Witness for C8: a FILLED cell's flags are all true. -/
theorem pure_cell_signs_agree_witness :
    ∀ b ∈ setLeafSigns .FILLED [true, false, true] [false, false, false],
      b = true :=
  (pure_cell_signs_agree .FILLED [true, false, true] [false, false, false]).2.1
    rfl

/-! ### C3: dummy pushes -/

/-- C3 counterexample: pushing the demo tape with a classifier that never
returns KEEP_BOTH does set the dummy counter to 1, but it still materializes
a new clause sequence in a new stack slot (the cursor advances and the new
subtape holds the emitted clauses), contradicting the claim that the counter
replaces materialization. -/
theorem dummy_push_materializes_cx :
    ¬ claimC3 demoTape keepAlwaysFn .INTERVAL demoRegion := by
  intro h
  have := (h (by decide)).1
  revert this
  decide

/-- C3 amended: a push whose classifier walk produced no KEEP_BOTH sets the
new subtape's counter to 1 but still advances the cursor and materializes the
emitted clause sequence into the new stack slot; every subsequent push on a
dummy tape only increments the counter, performing no classifier walk and
touching no other state (it does not even read the classifier, type or
region); pop with a counter above 1 only decrements it, and otherwise moves
the cursor back. -/
theorem dummy_push_amended (tp : Tape) (fn : Opcode → Nat → Nat → Nat → Keep)
    (ty : TapeType) (r : Region) :
    (tp.cursor < tp.tapes.length →
      (tp.tapes.getD tp.cursor default).dummy = 0 →
      (scanList fn (initScan tp.numClauses (tp.tapes.getD tp.cursor default).t)
          (tp.tapes.getD tp.cursor default).t).hasChoices = false →
      (tp.push fn ty r).cursor = tp.cursor + 1 ∧
      ((tp.push fn ty r).tapes.getD (tp.cursor + 1) default).dummy = 1 ∧
      ((tp.push fn ty r).tapes.getD (tp.cursor + 1) default).t =
        pushEmit (scanList fn
          (initScan tp.numClauses (tp.tapes.getD tp.cursor default).t)
          (tp.tapes.getD tp.cursor default).t)
          (tp.tapes.getD tp.cursor default).t) ∧
    ((tp.tapes.getD tp.cursor default).dummy ≠ 0 →
      tp.push fn ty r =
        { tp with
          tapes :=
            tp.tapes.set tp.cursor
              { tp.tapes.getD tp.cursor default with
                dummy := (tp.tapes.getD tp.cursor default).dummy + 1 } } ∧
      (∀ fn2 ty2 r2, tp.push fn ty r = tp.push fn2 ty2 r2)) ∧
    (1 < (tp.tapes.getD tp.cursor default).dummy →
      tp.pop =
        { tp with
          tapes :=
            tp.tapes.set tp.cursor
              { tp.tapes.getD tp.cursor default with
                dummy := (tp.tapes.getD tp.cursor default).dummy - 1 } }) ∧
    (¬ 1 < (tp.tapes.getD tp.cursor default).dummy →
      tp.pop = { tp with cursor := tp.cursor - 1 }) := by
  refine ⟨fun hcur hd hc => ?_, fun hd => ⟨?_, fun fn2 ty2 r2 => ?_⟩,
          fun hd => ?_, fun hd => ?_⟩
  · simp only [Tape.push, hd, hc]
    simp only [if_neg (by simp : ¬ (0 ≠ 0)), if_neg (by simp : ¬ False)]
    by_cases hlt : tp.cursor + 1 < tp.tapes.length
    · rw [if_pos hlt]
      exact ⟨rfl, by rw [getD_set_self _ _ _ _ hlt]; simp,
             by rw [getD_set_self _ _ _ _ hlt]⟩
    · rw [if_neg hlt]
      have hlen : tp.cursor + 1 = tp.tapes.length := by omega
      exact ⟨rfl, by rw [hlen, getD_append_self]; simp,
             by rw [hlen, getD_append_self]⟩
  · simp only [Tape.push, if_pos hd]
  · simp only [Tape.push, if_pos hd]
  · simp only [Tape.pop, if_pos hd]
  · simp only [Tape.pop, if_neg hd]

/-- Witness for C3 amended, on the demo tape with the KEEP_ALWAYS
classifier. -/
theorem dummy_push_amended_witness :
    (demoTape.push keepAlwaysFn .INTERVAL demoRegion).cursor =
      demoTape.cursor + 1 ∧
    ((demoTape.push keepAlwaysFn .INTERVAL demoRegion).tapes.getD
        (demoTape.cursor + 1) default).dummy = 1 :=
  let h := (dummy_push_amended demoTape keepAlwaysFn .INTERVAL demoRegion).1
    (by decide) (by decide) (by decide)
  ⟨h.1, h.2.1⟩

/-! ### C7: bottom-up collapse -/

/-- C7 counterexample: with two non-branch EMPTY children and a residual
error of 10 against max_err = 0, the merge still commits (children are
released, the parent becomes a leaf), while the claim requires the merge to
be rejected whenever the error is not below max_err. -/
theorem collect_reject_claim_cx :
    ¬ claimC7 0 [⟨false, .EMPTY⟩, ⟨false, .EMPTY⟩] 10 0 := by
  intro h
  have h2 := (h rfl (by decide)).2 (by norm_num)
  revert h2
  decide

/-- C7 amended: the merge is performed only by the last arriving sibling; if
any child is a branch the parent stays a branch and no leaf is allocated;
when the children are all non-branch and of mixed sign (not all EMPTY, not
all FILLED) the parent leaf is built and the error test decides: commit
(signs computed and checked, children released, parent a leaf) iff the
maximum residual error is strictly below max_err, else reject (parent leaf
released, children kept); but when the children are uniformly EMPTY or
uniformly FILLED the collapse commits unconditionally, without the error
test. -/
theorem collect_children_amended (pending : Nat) (cs : List ChildCell)
    (solveErr maxErr : ℚ) :
    (pending ≠ 0 → (collectChildren pending cs solveErr maxErr).performed = false) ∧
    (pending = 0 → cs.any (·.isBranch) = true →
      collectChildren pending cs solveErr maxErr =
        ⟨true, true, false, false, false, false, false, .UNKNOWN⟩) ∧
    (pending = 0 → cs.any (·.isBranch) = false →
      (cs.all fun c => decide (c.ctype = .EMPTY)) = false →
      (cs.all fun c => decide (c.ctype = .FILLED)) = false →
      (solveErr < maxErr →
        collectChildren pending cs solveErr maxErr =
          ⟨true, false, true, false, true, true, true, .AMBIGUOUS⟩) ∧
      (¬ solveErr < maxErr →
        collectChildren pending cs solveErr maxErr =
          ⟨true, true, true, true, false, false, false, .AMBIGUOUS⟩)) ∧
    (pending = 0 → cs.any (·.isBranch) = false →
      ((cs.all fun c => decide (c.ctype = .EMPTY)) = true ∨
       (cs.all fun c => decide (c.ctype = .FILLED)) = true) →
      (collectChildren pending cs solveErr maxErr).childrenReleased = true ∧
      (collectChildren pending cs solveErr maxErr).isBranch = false ∧
      (collectChildren pending cs solveErr maxErr).leafAllocated = true) := by
  refine ⟨fun hp => ?_, fun hp hb => ?_, fun hp hb he hf => ?_, fun hp hb hu => ?_⟩
  · simp only [collectChildren, if_pos hp]
  · subst hp
    simp only [collectChildren, if_neg (by simp : ¬ (0 ≠ 0)), hb]
    rw [if_pos trivial]
  · subst hp
    simp only [collectChildren, if_neg (by simp : ¬ (0 ≠ 0)), hb,
               Bool.false_eq_true, if_neg (by simp : ¬ False), he, hf,
               if_neg (by decide : ¬ (CellType.AMBIGUOUS = CellType.EMPTY ∨
                                      CellType.AMBIGUOUS = CellType.FILLED))]
    constructor
    · intro hlt; rw [if_pos hlt]
    · intro hlt; rw [if_neg hlt]
  · subst hp
    simp only [collectChildren, if_neg (by simp : ¬ (0 ≠ 0)), hb,
               Bool.false_eq_true, if_neg (by simp : ¬ False)]
    rcases hu with hu | hu
    · rw [hu]
      simp only [if_pos rfl,
        if_pos (Or.inl rfl : CellType.EMPTY = CellType.EMPTY ∨
                             CellType.EMPTY = CellType.FILLED)]
      exact ⟨rfl, rfl, rfl⟩
    · rw [hu]
      by_cases he : (cs.all fun c => decide (c.ctype = .EMPTY)) = true
      · rw [he]
        simp only [if_pos rfl,
          if_pos (Or.inl rfl : CellType.EMPTY = CellType.EMPTY ∨
                               CellType.EMPTY = CellType.FILLED)]
        exact ⟨rfl, rfl, rfl⟩
      · rw [Bool.not_eq_true] at he
        rw [he]
        simp only [Bool.false_eq_true, if_neg (by simp : ¬ False), if_pos rfl,
          if_pos (Or.inr rfl : CellType.FILLED = CellType.EMPTY ∨
                               CellType.FILLED = CellType.FILLED)]
        exact ⟨rfl, rfl, rfl⟩

/-- Witness for C7 amended: mixed children with error below max_err
commit. -/
theorem collect_children_amended_witness :
    collectChildren 0 [⟨false, .EMPTY⟩, ⟨false, .FILLED⟩] 0 1 =
      ⟨true, false, true, false, true, true, true, .AMBIGUOUS⟩ :=
  ((collect_children_amended 0 [⟨false, .EMPTY⟩, ⟨false, .FILLED⟩] 0 1).2.2.1
    rfl (by decide) (by decide) (by decide)).1 (by norm_num)

/-! ### C1: push/pop cursor restore and stack growth bound -/

theorem cursor_lt_of_dummy_ne (tp : Tape)
    (hd : (tp.tapes.getD tp.cursor default).dummy ≠ 0) :
    tp.cursor < tp.tapes.length := by
  by_contra h
  push_neg at h
  rw [List.getD_eq_default _ _ h] at hd
  exact hd rfl

theorem push_pop_cursor (tp : Tape) (fn : Opcode → Nat → Nat → Nat → Keep)
    (ty : TapeType) (r : Region) : ((tp.push fn ty r).pop).cursor = tp.cursor := by
  by_cases hd : (tp.tapes.getD tp.cursor default).dummy ≠ 0
  · have hlen : tp.cursor < tp.tapes.length := cursor_lt_of_dummy_ne tp hd
    simp only [Tape.push, if_pos hd, Tape.pop]
    rw [getD_set_self _ _ _ _ hlen]
    rw [if_pos (by omega : 1 < (tp.tapes.getD tp.cursor default).dummy + 1)]
  · simp only [Tape.push, if_neg hd, Tape.pop]
    by_cases hlt : tp.cursor + 1 < tp.tapes.length
    · rw [if_pos hlt]
      rw [getD_set_self _ _ _ _ hlt]
      rw [if_neg (by split <;> omega :
            ¬ 1 < (if (scanList fn
              (initScan tp.numClauses (tp.tapes.getD tp.cursor default).t)
              (tp.tapes.getD tp.cursor default).t).hasChoices then 0 else 1))]
      simp
    · rw [if_neg hlt]
      by_cases hx : tp.cursor + 1 = tp.tapes.length
      · rw [hx, getD_append_self]
        rw [if_neg (by split <;> omega :
              ¬ 1 < (if (scanList fn
                (initScan tp.numClauses (tp.tapes.getD tp.cursor default).t)
                (tp.tapes.getD tp.cursor default).t).hasChoices then 0 else 1))]
        simp
        omega
      · rw [List.getD_eq_default _ _ (by simp; omega)]
        rw [if_neg (by simp [default] :
              ¬ (1:Nat) < (default : Subtape).dummy)]
        simp

theorem push_cursor_nonzero (tp : Tape)
    (h0 : (tp.tapes.getD 0 default).dummy = 0)
    (fn : Opcode → Nat → Nat → Nat → Keep) (ty : TapeType) (r : Region) :
    (tp.push fn ty r).cursor ≠ 0 := by
  by_cases hd : (tp.tapes.getD tp.cursor default).dummy ≠ 0
  · simp only [Tape.push, if_pos hd]
    intro hc
    exact hd (hc ▸ h0)
  · simp only [Tape.push, if_neg hd]
    split <;> simp

theorem push_step (tp : Tape) (fn : Opcode → Nat → Nat → Nat → Keep)
    (ty : TapeType) (r : Region) (hwf : WfCursor tp) :
    WfCursor (tp.push fn ty r) ∧
    depthOf (tp.push fn ty r) = depthOf tp + 1 ∧
    tp.tapes.length ≤ (tp.push fn ty r).tapes.length ∧
    (tp.push fn ty r).tapes.length ≤
      max tp.tapes.length (depthOf (tp.push fn ty r) + 1) := by
  obtain ⟨hc, hbelow, h0⟩ := hwf
  by_cases hd : (tp.tapes.getD tp.cursor default).dummy ≠ 0
  · have hcur0 : tp.cursor ≠ 0 := fun hc0 => hd (hc0 ▸ h0)
    simp only [Tape.push, if_pos hd, WfCursor, depthOf]
    try dsimp only
    rw [List.length_set, getD_set_self _ _ _ _ (cursor_lt_of_dummy_ne tp hd)]
    try dsimp only
    refine ⟨⟨hc, ?_, ?_⟩, by omega, by omega, by omega⟩
    · intro i hi
      rw [getD_set_ne _ _ _ _ _ (by omega)]
      exact hbelow i hi
    · rw [getD_set_ne _ _ _ _ _ (fun h => hcur0 h.symm)]
      exact h0
  · have hd0 : (tp.tapes.getD tp.cursor default).dummy = 0 := by
      by_contra h; exact hd h
    simp only [Tape.push, if_neg hd, WfCursor, depthOf]
    by_cases hlt : tp.cursor + 1 < tp.tapes.length
    · rw [if_pos hlt]
      try dsimp only
      rw [List.length_set, getD_set_self _ _ _ _ hlt]
      try dsimp only
      refine ⟨⟨hlt, ?_, ?_⟩, ?_, by omega, ?_⟩
      · intro i hi
        rw [getD_set_ne _ _ _ _ _ (by omega)]
        rcases Nat.lt_or_ge i tp.cursor with h | h
        · exact hbelow i h
        · have hieq : i = tp.cursor := by omega
          rw [hieq]; exact hd0
      · rw [getD_set_ne _ 0 (tp.cursor + 1) _ _ (by omega)]
        exact h0
      · rw [hd0]
        split <;> omega
      · split <;> omega
    · rw [if_neg hlt]
      have hx : tp.cursor + 1 = tp.tapes.length := by omega
      try dsimp only
      rw [List.length_append, hx, getD_append_self]
      try dsimp only
      refine ⟨⟨by simp, ?_, ?_⟩, ?_, by simp, ?_⟩
      · intro i hi
        rw [getD_append_left _ _ _ _ (by omega)]
        rcases Nat.lt_or_ge i tp.cursor with h | h
        · exact hbelow i h
        · have hieq : i = tp.cursor := by omega
          rw [hieq]; exact hd0
      · rw [getD_append_left _ _ _ _ (by omega)]
        exact h0
      · rw [hd0]
        split <;> omega
      · simp only [List.length_singleton]
        split <;> omega

theorem pop_step (tp : Tape) (hwf : WfCursor tp) (hd : 1 ≤ depthOf tp) :
    WfCursor tp.pop ∧
    depthOf tp.pop = depthOf tp - 1 ∧
    tp.pop.tapes.length = tp.tapes.length := by
  obtain ⟨hc, hbelow, h0⟩ := hwf
  by_cases hdm : 1 < (tp.tapes.getD tp.cursor default).dummy
  · have hne : (tp.tapes.getD tp.cursor default).dummy ≠ 0 := by omega
    have hcur0 : tp.cursor ≠ 0 := fun hc0 => hne (hc0 ▸ h0)
    have hlen : tp.cursor < tp.tapes.length := cursor_lt_of_dummy_ne tp hne
    simp only [Tape.pop, if_pos hdm, WfCursor, depthOf]
    try dsimp only
    rw [List.length_set, getD_set_self _ _ _ _ hlen]
    try dsimp only
    refine ⟨⟨hc, ?_, ?_⟩, by omega, by omega⟩
    · intro i hi
      rw [getD_set_ne _ _ _ _ _ (by omega)]
      exact hbelow i hi
    · rw [getD_set_ne _ _ _ _ _ (fun h => hcur0 h.symm)]
      exact h0
  · have hcpos : 1 ≤ tp.cursor := by
      simp only [depthOf] at hd
      omega
    simp only [Tape.pop, if_neg hdm, WfCursor, depthOf]
    try dsimp only
    rw [hbelow (tp.cursor - 1) (by omega)]
    refine ⟨⟨by omega, ?_, h0⟩, by omega, by trivial⟩
    intro i hi
    exact hbelow i (by omega)

theorem runOps_inv (ops : List TapeOp) :
    ∀ (tp : Tape) (mx : Nat),
      WfCursor tp → tp.tapes.length ≤ mx + 1 →
      legalB (depthOf tp) ops = true →
      WfCursor (runOps tp ops) ∧
      depthOf (runOps tp ops) = netDepthB (depthOf tp) ops ∧
      (runOps tp ops).tapes.length ≤ maxDepthB (depthOf tp) mx ops + 1 ∧
      tp.tapes.length ≤ (runOps tp ops).tapes.length := by
  induction ops with
  | nil =>
    intro tp mx hwf hlen _
    exact ⟨hwf, rfl, hlen, le_refl _⟩
  | cons op rest ih =>
    intro tp mx hwf hlen hleg
    cases op with
    | push fn ty r =>
      obtain ⟨w1, w2, w3, w4⟩ := push_step tp fn ty r hwf
      have hleg' : legalB (depthOf (tp.push fn ty r)) rest = true := by
        rw [w2]; exact hleg
      have hlen' : (tp.push fn ty r).tapes.length ≤ max mx (depthOf tp + 1) + 1 := by
        rw [w2] at w4; omega
      obtain ⟨z1, z2, z3, z4⟩ := ih (tp.push fn ty r) (max mx (depthOf tp + 1))
        w1 hlen' hleg'
      refine ⟨z1, ?_, ?_, le_trans w3 z4⟩
      · simp only [runOps, List.foldl_cons, runOp, netDepthB]
        rw [← w2]
        simpa only [runOps] using z2
      · simp only [runOps, List.foldl_cons, runOp, maxDepthB]
        rw [w2] at z3
        simpa only [runOps] using z3
    | pop =>
      have hd1 : 1 ≤ depthOf tp := by
        simp only [legalB] at hleg
        by_cases h : depthOf tp = 0
        · rw [if_pos h] at hleg; exact absurd hleg (by simp)
        · omega
      obtain ⟨w1, w2, w3⟩ := pop_step tp hwf hd1
      have hleg' : legalB (depthOf tp.pop) rest = true := by
        rw [w2]
        simp only [legalB] at hleg
        rw [if_neg (by omega : ¬ depthOf tp = 0)] at hleg
        exact hleg
      obtain ⟨z1, z2, z3, z4⟩ := ih tp.pop mx w1 (by omega) hleg'
      refine ⟨z1, ?_, ?_, ?_⟩
      · simp only [runOps, List.foldl_cons, runOp, netDepthB]
        rw [← w2]
        simpa only [runOps] using z2
      · simp only [runOps, List.foldl_cons, runOp, maxDepthB]
        rw [w2] at z3
        simpa only [runOps] using z3
      · rw [← w3]
        exact z4

theorem legalB_append (l1 l2 : List TapeOp) :
    ∀ d, legalB d (l1 ++ l2) = true →
      legalB d l1 = true ∧ legalB (netDepthB d l1) l2 = true := by
  induction l1 with
  | nil => intro d h; exact ⟨rfl, h⟩
  | cons op rest ih =>
    intro d h
    cases op with
    | push fn ty r =>
      simp only [List.cons_append, legalB, netDepthB] at h ⊢
      exact ih (d + 1) h
    | pop =>
      simp only [List.cons_append, legalB, netDepthB] at h ⊢
      by_cases hd : d = 0
      · rw [if_pos hd] at h; exact absurd h (by simp)
      · rw [if_neg hd] at h ⊢
        exact ih (d - 1) h

theorem buildTape_wfCursor (flat : List FlatNode) :
    WfCursor (buildTape flat) ∧ depthOf (buildTape flat) = 0 ∧
    (buildTape flat).tapes.length = 1 :=
  ⟨⟨Nat.zero_lt_one, fun i hi => absurd hi (Nat.not_lt_zero i), rfl⟩, rfl, rfl⟩

/-- C1: starting from a freshly constructed tape, for every legal sequence
of pushes and pops: a further push with any classifier leaves the cursor off
the base and a push followed by pop restores the cursor exactly; the tapes
stack never exceeds (maximum nesting depth) + 1 subtapes; and the stack
never shrinks (every prefix state's stack is no longer than the final
one). -/
theorem tape_push_pop_cursor_stack (flat : List FlatNode) (ops : List TapeOp)
    (hleg : legalB 0 ops = true) :
    (∀ fn ty r,
      ((runOps (buildTape flat) ops).push fn ty r).cursor ≠ 0 ∧
      (((runOps (buildTape flat) ops).push fn ty r)).pop.cursor =
        (runOps (buildTape flat) ops).cursor) ∧
    (runOps (buildTape flat) ops).tapes.length ≤ maxDepthB 0 0 ops + 1 ∧
    (∀ k, (runOps (buildTape flat) (ops.take k)).tapes.length ≤
      (runOps (buildTape flat) ops).tapes.length) := by
  obtain ⟨hwf0, hdep0, hlen0⟩ := buildTape_wfCursor flat
  have hlegd : legalB (depthOf (buildTape flat)) ops = true := by
    rw [hdep0]; exact hleg
  obtain ⟨z1, z2, z3, z4⟩ := runOps_inv ops (buildTape flat) 0 hwf0
    (by omega) hlegd
  refine ⟨fun fn ty r => ⟨push_cursor_nonzero _ z1.2.2 fn ty r,
          push_pop_cursor _ fn ty r⟩, by rw [hdep0] at z3; exact z3, fun k => ?_⟩
  have hsplit := legalB_append (ops.take k) (ops.drop k) 0
    (by rw [List.take_append_drop]; exact hleg)
  have hlegtake : legalB (depthOf (buildTape flat)) (ops.take k) = true := by
    rw [hdep0]; exact hsplit.1
  obtain ⟨y1, y2, y3, y4⟩ := runOps_inv (ops.take k) (buildTape flat) 0 hwf0
    (by omega) hlegtake
  have hlegdrop : legalB (depthOf (runOps (buildTape flat) (ops.take k)))
      (ops.drop k) = true := by
    rw [y2, hdep0]; exact hsplit.2
  obtain ⟨x1, x2, x3, x4⟩ := runOps_inv (ops.drop k)
    (runOps (buildTape flat) (ops.take k))
    ((runOps (buildTape flat) (ops.take k)).tapes.length) y1
    (by omega) hlegdrop
  have heq : runOps (runOps (buildTape flat) (ops.take k)) (ops.drop k) =
      runOps (buildTape flat) ops := by
    simp only [runOps]
    rw [← List.foldl_append, List.take_append_drop]
  rw [heq] at x4
  exact x4

/-- Witness for C1: one push and one pop on the demo tape. -/
theorem tape_push_pop_cursor_stack_witness :
    (runOps (buildTape demoFlat)
        [TapeOp.push keepBothFn .INTERVAL demoRegion, TapeOp.pop]).tapes.length ≤
      maxDepthB 0 0 [TapeOp.push keepBothFn .INTERVAL demoRegion, TapeOp.pop]
        + 1 :=
  (tape_push_pop_cursor_stack demoFlat
    [TapeOp.push keepBothFn .INTERVAL demoRegion, TapeOp.pop] (by rfl)).2.1

/-! ### C9: global index assignment -/

theorem assignSubs_counter (rs : List Nat) (c : Nat) :
    (assignSubs rs c).2 = c + (freshSubs rs c).length := by
  induction rs generalizing c with
  | nil => simp [assignSubs, freshSubs]
  | cons r rs ih =>
    by_cases hr : r ≠ 0
    · simp only [assignSubs, freshSubs, if_pos hr]
      exact ih c
    · simp only [assignSubs, freshSubs, if_neg hr, List.length_cons]
      rw [ih (c + 1)]
      omega

theorem freshSubs_range (rs : List Nat) (c : Nat) :
    freshSubs rs c = List.range' c (freshSubs rs c).length := by
  induction rs generalizing c with
  | nil => simp [freshSubs]
  | cons r rs ih =>
    by_cases hr : r ≠ 0
    · simp only [freshSubs, if_pos hr]
      exact ih c
    · simp only [freshSubs, if_neg hr, List.length_cons, List.range'_succ]
      rw [← ih (c + 1)]

theorem assignSubs_mem (rs : List Nat) (c : Nat) :
    ∀ x ∈ (assignSubs rs c).1, x ∈ freshSubs rs c ∨ (x ∈ rs ∧ x ≠ 0) := by
  induction rs generalizing c with
  | nil => simp [assignSubs]
  | cons r rs ih =>
    by_cases hr : r ≠ 0
    · simp only [assignSubs, freshSubs, if_pos hr]
      intro x hx
      rcases List.mem_cons.mp hx with rfl | hx
      · exact Or.inr ⟨List.mem_cons_self _ _, hr⟩
      · rcases ih c x hx with h | h
        · exact Or.inl h
        · exact Or.inr ⟨List.mem_cons_of_mem _ h.1, h.2⟩
    · simp only [assignSubs, freshSubs, if_neg hr]
      intro x hx
      rcases List.mem_cons.mp hx with rfl | hx
      · exact Or.inl (List.mem_cons_self _ _)
      · rcases ih (c + 1) x hx with h | h
        · exact Or.inl (List.mem_cons_of_mem _ h)
        · exact Or.inr ⟨List.mem_cons_of_mem _ h.1, h.2⟩

theorem range'_glue (l1 l2 : List Nat) (c : Nat)
    (e1 : l1 = List.range' c l1.length)
    (e2 : l2 = List.range' (c + l1.length) l2.length) :
    l1 ++ l2 = List.range' c (l1 ++ l2).length := by
  rw [List.length_append]
  conv_lhs => rw [e1, e2]
  have h := List.range'_append c l1.length l2.length 1
  simp only [one_mul] at h
  rw [h, Nat.add_comm l2.length l1.length]

theorem assignNode_spec (t : SNode) :
    ∀ c, (assignNode t c).2 = c + (freshNode t c).length ∧
      freshNode t c = List.range' c (freshNode t c).length ∧
      (∀ x ∈ allIndices (assignNode t c).1,
        x ∈ freshNode t c ∨ (x ∈ allIndices t ∧ x ≠ 0)) := by
  induction t using SNode.rec
    (motive_2 := fun cs => ∀ c,
      (assignChildren cs c).2 = c + (freshChildren cs c).length ∧
      freshChildren cs c = List.range' c (freshChildren cs c).length ∧
      (∀ x ∈ allIndicesList (assignChildren cs c).1,
        x ∈ freshChildren cs c ∨ (x ∈ allIndicesList cs ∧ x ≠ 0))) with
  | leaf subs =>
    intro c
    refine ⟨assignSubs_counter subs c, freshSubs_range subs c, ?_⟩
    simpa [assignNode, freshNode, allIndices] using assignSubs_mem subs c
  | branch cs ih =>
    intro c
    refine ⟨(ih c).1, (ih c).2.1, ?_⟩
    simpa [assignNode, freshNode, allIndices] using (ih c).2.2
  | nil =>
    rename_i c
    simp [assignChildren, freshChildren, allIndicesList]
  | cons t ts iht ihts =>
    rename_i c
    simp only [assignChildren, freshChildren, allIndicesList]
    obtain ⟨h1, h2, h3⟩ := iht c
    obtain ⟨g1, g2, g3⟩ := ihts (assignNode t c).2
    refine ⟨?_, ?_, ?_⟩
    · rw [g1, h1, List.length_append]
      omega
    · apply range'_glue
      · exact h2
      · rw [← h1]; exact g2
    · intro x hx
      rcases List.mem_append.mp hx with hx | hx
      · rcases h3 x hx with h | h
        · exact Or.inl (List.mem_append_left _ h)
        · exact Or.inr ⟨List.mem_append_left _ h.1, h.2⟩
      · rcases g3 x hx with h | h
        · exact Or.inl (List.mem_append_right _ h)
        · exact Or.inr ⟨List.mem_append_right _ h.1, h.2⟩

/-! ### The classifier walk: invariants shared by C2 and C10 -/

theorem getD_set_same (l : List Nat) (n : Nat) (d v : Nat)
    (h : l.getD n d = v) : ∀ x, (l.set n v).getD x d = l.getD x d := by
  intro x
  by_cases hx : x = n
  · subst hx
    by_cases hn : x < l.length
    · rw [getD_set_self _ _ _ _ hn, h]
    · rw [List.set_eq_of_length_le (by omega)]
  · rw [getD_set_ne _ _ _ _ _ hx]

theorem dis_false_of_getD (s : PushScan) (x : Nat)
    (h : dis s x ≠ true) : dis s x = false := by
  revert h; cases dis s x <;> simp

/-- Disabled-array contents after the two operand-enabling writes. -/
theorem getD_set2_false (dl : List Bool) (a b x : Nat)
    (ha : a < dl.length) (hb : b < dl.length) :
    ((dl.set a false).set b false).getD x true =
      if x = a ∨ x = b then false else dl.getD x true := by
  by_cases hxb : x = b
  · subst hxb
    rw [getD_set_self _ _ _ _ (by simpa using hb), if_pos (Or.inr rfl)]
  · rw [getD_set_ne _ _ _ _ _ hxb]
    by_cases hxa : x = a
    · subst hxa
      rw [getD_set_self _ _ _ _ ha, if_pos (Or.inl rfl)]
    · rw [getD_set_ne _ _ _ _ _ hxa, if_neg (by tauto)]

/-- Effect of one enabled classifier step on the scratch arrays, as total
descriptions of the new disabled/remap contents: either no remap was written
(KEEP_BOTH / KEEP_ALWAYS, or KEEP_A / KEEP_B whose chosen operand is the null
id 0) and the clause's operands (for non-dummy ops) are the only newly
enabled entries, or the clause was remapped to one of its nonzero operands,
that operand was enabled, and the clause itself disabled. -/
theorem pushStep_shape (fn : Opcode → Nat → Nat → Nat → Keep)
    (hfn : FnContract fn) (L : Nat) (U : List Nat) (s : PushScan) (c : Clause)
    (hdl : s.disabled.length = L) (hrl : s.remap.length = L)
    (hvis : dis s c.id = false) (hrm0 : rm s c.id = 0)
    (hidL : c.id < L) (hid1 : 1 ≤ c.id)
    (hops : hasDummyChildren c.op = false →
      (c.a = 0 ∨ (c.a < c.id ∧ c.a ∈ U)) ∧ (c.b = 0 ∨ (c.b < c.id ∧ c.b ∈ U))) :
    ((pushStep fn s c).disabled.length = L ∧
     (pushStep fn s c).remap.length = L) ∧
    (((∀ x, rm (pushStep fn s c) x = rm s x) ∧
      (hasDummyChildren c.op = true →
        ∀ x, dis (pushStep fn s c) x = dis s x) ∧
      (hasDummyChildren c.op = false →
        ∀ x, dis (pushStep fn s c) x =
          if x = c.a ∨ x = c.b then false else dis s x)) ∨
     (∃ o, (o = c.a ∨ o = c.b) ∧ o ≠ 0 ∧ o < c.id ∧ o ∈ U ∧
       hasDummyChildren c.op = false ∧
       (∀ x, rm (pushStep fn s c) x = if x = c.id then o else rm s x) ∧
       (∀ x, dis (pushStep fn s c) x =
         if x = c.id then true else if x = o then false else dis s x))) := by
  have hLpos : 0 < L := by omega
  have hvisb : ¬ (s.disabled.getD c.id true = true) := by
    rw [show s.disabled.getD c.id true = dis s c.id from rfl, hvis]; simp
  simp only [pushStep, if_neg hvisb]
  rcases hk : fn c.op c.id c.a c.b with _ | _ | _ | _
  · -- KEEP_A
    have hnd : hasDummyChildren c.op = false := by
      by_contra h
      have h2 : hasDummyChildren c.op = true := by
        revert h; cases hasDummyChildren c.op <;> simp
      rcases hfn c.op c.id c.a c.b h2 with he | he <;> rw [hk] at he <;>
        exact Keep.noConfusion he
    have hndb : ¬ (hasDummyChildren c.op = true) := by rw [hnd]; simp
    have haB : c.a < L := by
      rcases (hops hnd).1 with h | h
      · omega
      · omega
    have hbB : c.b < L := by
      rcases (hops hnd).2 with h | h
      · omega
      · omega
    by_cases ha0 : c.a = 0
    · -- c.a = 0 : the remap write stores the value already there
      have hrmeq : ∀ x,
          ((s.remap.set c.id c.a).getD x 0) = s.remap.getD x 0 :=
        getD_set_same _ _ _ _ (by rw [ha0]; exact hrm0)
      have hcnd : ¬ ((s.remap.set c.id c.a).getD c.id 0 ≠ 0) := by
        rw [hrmeq c.id]
        simp only [ne_eq, not_not]
        exact hrm0
      rw [if_neg hcnd, if_neg hndb]
      refine ⟨⟨by simp [hdl], by simp [hrl]⟩, Or.inl ⟨?_, ?_, ?_⟩⟩
      · intro x; exact hrmeq x
      · intro h; exact absurd h hndb
      · intro _ x
        simp only [dis, List.set_set]
        exact getD_set2_false _ _ _ _ (by omega) (by omega)
    · -- c.a ≠ 0 : real remap
      obtain ⟨haless, haU⟩ : c.a < c.id ∧ c.a ∈ U := by
        rcases (hops hnd).1 with h | h
        · exact absurd h ha0
        · exact h
      have hcnd : (s.remap.set c.id c.a).getD c.id 0 ≠ 0 := by
        rw [getD_set_self _ _ _ _ (by omega : c.id < s.remap.length)]
        exact ha0
      rw [if_pos hcnd]
      refine ⟨⟨by simp [hdl], by simp [hrl]⟩,
        Or.inr ⟨c.a, Or.inl rfl, ha0, haless, haU, hnd, ?_, ?_⟩⟩
      · intro x
        simp only [rm]
        by_cases hx : x = c.id
        · subst hx
          rw [getD_set_self _ _ _ _ (by omega : c.id < s.remap.length),
              if_pos rfl]
        · rw [getD_set_ne _ _ _ _ _ hx, if_neg hx]
      · intro x
        simp only [dis]
        by_cases hx : x = c.id
        · subst hx
          rw [getD_set_self _ _ _ _ (by simp [hdl]; omega), if_pos rfl]
        · rw [getD_set_ne _ _ _ _ _ hx, if_neg hx]
          by_cases hxa : x = c.a
          · subst hxa
            rw [getD_set_self _ _ _ _ (by omega : c.a < s.disabled.length),
                if_pos rfl]
          · rw [getD_set_ne _ _ _ _ _ hxa, if_neg hxa]
  · -- KEEP_B
    have hnd : hasDummyChildren c.op = false := by
      by_contra h
      have h2 : hasDummyChildren c.op = true := by
        revert h; cases hasDummyChildren c.op <;> simp
      rcases hfn c.op c.id c.a c.b h2 with he | he <;> rw [hk] at he <;>
        exact Keep.noConfusion he
    have hndb : ¬ (hasDummyChildren c.op = true) := by rw [hnd]; simp
    have haB : c.a < L := by
      rcases (hops hnd).1 with h | h
      · omega
      · omega
    have hbB : c.b < L := by
      rcases (hops hnd).2 with h | h
      · omega
      · omega
    by_cases hb0 : c.b = 0
    · have hrmeq : ∀ x,
          ((s.remap.set c.id c.b).getD x 0) = s.remap.getD x 0 :=
        getD_set_same _ _ _ _ (by rw [hb0]; exact hrm0)
      have hcnd : ¬ ((s.remap.set c.id c.b).getD c.id 0 ≠ 0) := by
        rw [hrmeq c.id]
        simp only [ne_eq, not_not]
        exact hrm0
      rw [if_neg hcnd, if_neg hndb]
      refine ⟨⟨by simp [hdl], by simp [hrl]⟩, Or.inl ⟨?_, ?_, ?_⟩⟩
      · intro x; exact hrmeq x
      · intro h; exact absurd h hndb
      · intro _ x
        simp only [dis]
        by_cases hxb : x = c.b
        · subst hxb
          rw [getD_set_self _ _ _ _ (by simp [hdl]; omega), if_pos (Or.inr rfl)]
        · rw [getD_set_ne _ _ _ _ _ hxb]
          by_cases hxa : x = c.a
          · subst hxa
            rw [getD_set_self _ _ _ _ (by simp [hdl]; omega),
                if_pos (Or.inl rfl)]
          · rw [getD_set_ne _ _ _ _ _ hxa, getD_set_ne _ _ _ _ _ hxb,
                if_neg (by tauto)]
    · obtain ⟨hbless, hbU⟩ : c.b < c.id ∧ c.b ∈ U := by
        rcases (hops hnd).2 with h | h
        · exact absurd h hb0
        · exact h
      have hcnd : (s.remap.set c.id c.b).getD c.id 0 ≠ 0 := by
        rw [getD_set_self _ _ _ _ (by omega : c.id < s.remap.length)]
        exact hb0
      rw [if_pos hcnd]
      refine ⟨⟨by simp [hdl], by simp [hrl]⟩,
        Or.inr ⟨c.b, Or.inr rfl, hb0, hbless, hbU, hnd, ?_, ?_⟩⟩
      · intro x
        simp only [rm]
        by_cases hx : x = c.id
        · subst hx
          rw [getD_set_self _ _ _ _ (by omega : c.id < s.remap.length),
              if_pos rfl]
        · rw [getD_set_ne _ _ _ _ _ hx, if_neg hx]
      · intro x
        simp only [dis]
        by_cases hx : x = c.id
        · subst hx
          rw [getD_set_self _ _ _ _ (by simp [hdl]; omega), if_pos rfl]
        · rw [getD_set_ne _ _ _ _ _ hx, if_neg hx]
          by_cases hxb : x = c.b
          · subst hxb
            rw [getD_set_self _ _ _ _ (by omega : c.b < s.disabled.length),
                if_pos rfl]
          · rw [getD_set_ne _ _ _ _ _ hxb, if_neg hxb]
  · -- KEEP_BOTH
    have hcnd : ¬ (s.remap.getD c.id 0 ≠ 0) := by
      simp only [ne_eq, not_not]
      exact hrm0
    rw [if_neg hcnd]
    by_cases hdm : hasDummyChildren c.op = true
    · rw [if_pos hdm]
      exact ⟨⟨hdl, hrl⟩, Or.inl ⟨fun x => rfl, fun _ x => rfl,
        fun h => absurd hdm (by rw [h]; simp)⟩⟩
    · have hnd : hasDummyChildren c.op = false := by
        revert hdm; cases hasDummyChildren c.op <;> simp
      have haB : c.a < L := by
        rcases (hops hnd).1 with h | h
        · omega
        · omega
      have hbB : c.b < L := by
        rcases (hops hnd).2 with h | h
        · omega
        · omega
      rw [if_neg hdm]
      refine ⟨⟨by simp [hdl], hrl⟩, Or.inl ⟨fun x => rfl,
        fun h => absurd h hdm, fun _ x => ?_⟩⟩
      simp only [dis]
      exact getD_set2_false _ _ _ _ (by omega) (by omega)
  · -- KEEP_ALWAYS
    have hcnd : ¬ (s.remap.getD c.id 0 ≠ 0) := by
      simp only [ne_eq, not_not]
      exact hrm0
    rw [if_neg hcnd]
    by_cases hdm : hasDummyChildren c.op = true
    · rw [if_pos hdm]
      exact ⟨⟨hdl, hrl⟩, Or.inl ⟨fun x => rfl, fun _ x => rfl,
        fun h => absurd hdm (by rw [h]; simp)⟩⟩
    · have hnd : hasDummyChildren c.op = false := by
        revert hdm; cases hasDummyChildren c.op <;> simp
      have haB : c.a < L := by
        rcases (hops hnd).1 with h | h
        · omega
        · omega
      have hbB : c.b < L := by
        rcases (hops hnd).2 with h | h
        · omega
        · omega
      rw [if_neg hdm]
      refine ⟨⟨by simp [hdl], hrl⟩, Or.inl ⟨fun x => rfl,
        fun h => absurd h hdm, fun _ x => ?_⟩⟩
      simp only [dis]
      exact getD_set2_false _ _ _ _ (by omega) (by omega)

/-- The classifier walk maintains the scan invariants and establishes:
enabled-or-remapped entries stay so (chains remain alive), entries disabled
above all remaining ids stay disabled, and the operands of every clause that
ends up enabled are enabled or remapped at the end of the walk. -/
theorem scan_main (fn : Opcode → Nat → Nat → Nat → Keep) (hfn : FnContract fn)
    (L : Nat) (U : List Nat) :
    ∀ (rest : List Clause) (s : PushScan),
      (∀ c ∈ rest, ClauseOkU U L c) →
      ((rest.map Clause.id).Pairwise (fun x y => y < x)) →
      StInv L U rest s →
      StInv L U [] (scanList fn s rest) ∧
      (∀ y, (dis s y = false ∨ rm s y ≠ 0) →
        (dis (scanList fn s rest) y = false ∨ rm (scanList fn s rest) y ≠ 0)) ∧
      (∀ y, dis s y = true → (∀ c ∈ rest, c.id < y) →
        dis (scanList fn s rest) y = true) ∧
      (∀ c ∈ rest, hasDummyChildren c.op = false →
        dis (scanList fn s rest) c.id = false →
        ((dis (scanList fn s rest) c.a = false ∨
          rm (scanList fn s rest) c.a ≠ 0) ∧
         (dis (scanList fn s rest) c.b = false ∨
          rm (scanList fn s rest) c.b ≠ 0))) := by
  intro rest
  induction rest with
  | nil =>
    intro s hok hpw hinv
    exact ⟨hinv, fun y h => h, fun y h _ => h,
           fun c hc => absurd hc (List.not_mem_nil c)⟩
  | cons c rest ih =>
    intro s hok hpw hinv
    obtain ⟨hdl, hrl, hI1, hI2, hI3, hI4, hI5⟩ := hinv
    obtain ⟨hid1, hidU, hidL, hops⟩ := hok c (List.mem_cons_self c rest)
    have hokr : ∀ c' ∈ rest, ClauseOkU U L c' :=
      fun c' h => hok c' (List.mem_cons_of_mem _ h)
    have hpw2 := hpw
    rw [List.map_cons, List.pairwise_cons] at hpw2
    obtain ⟨hltc, hpwr⟩ := hpw2
    have hlt_rest : ∀ c' ∈ rest, c'.id < c.id := by
      intro c' h
      exact hltc _ (List.mem_map_of_mem _ h)
    have hscan : scanList fn s (c :: rest) = scanList fn (pushStep fn s c) rest :=
      rfl
    rw [hscan]
    by_cases hvis : dis s c.id = true
    · -- clause already disabled: the step is a no-op
      have hstep : pushStep fn s c = s := by
        simp only [pushStep]
        rw [if_pos (show s.disabled.getD c.id true = true from hvis)]
      rw [hstep]
      have hI4' : ∀ x, rm s x ≠ 0 → ∀ c' ∈ rest, c'.id < x :=
        fun x hx c' h => hI4 x hx c' (List.mem_cons_of_mem _ h)
      obtain ⟨f1, f2, f3, f4⟩ := ih s hokr hpwr
        ⟨hdl, hrl, hI1, hI2, hI3, hI4', hI5⟩
      refine ⟨f1, f2,
        fun y hy hlt => f3 y hy (fun c' h => hlt c' (List.mem_cons_of_mem _ h)),
        ?_⟩
      intro c' hc' hnd hdis
      rcases List.mem_cons.mp hc' with heq | hmem
      · exfalso
        have ht := f3 c.id hvis hlt_rest
        rw [heq] at hdis
        rw [hdis] at ht
        exact Bool.noConfusion ht
      · exact f4 c' hmem hnd hdis
    · -- enabled clause
      have hvis' : dis s c.id = false := dis_false_of_getD s c.id hvis
      have hrm0 : rm s c.id = 0 := by
        by_contra hne
        have := hI2 c.id hne
        rw [hvis'] at this
        exact Bool.noConfusion this
      obtain ⟨⟨hdl', hrl'⟩, hshape⟩ :=
        pushStep_shape fn hfn L U s c hdl hrl hvis' hrm0 hidL hid1 hops
      rcases hshape with ⟨hrmE, hdisD, hdisN⟩ |
        ⟨o, hoab, ho0, holt, hoU, hnd, hrmR, hdisR⟩
      · -- Case N: no remap written
        have dis_pf : ∀ x, dis s x = false → dis (pushStep fn s c) x = false := by
          intro x hx
          by_cases hdm : hasDummyChildren c.op = true
          · rw [hdisD hdm]; exact hx
          · have hnd2 : hasDummyChildren c.op = false := by
              revert hdm; cases hasDummyChildren c.op <;> simp
            rw [hdisN hnd2]
            split
            · rfl
            · exact hx
        have hless : hasDummyChildren c.op = false →
            (c.a = 0 ∨ c.a < c.id) ∧ (c.b = 0 ∨ c.b < c.id) := by
          intro hnd2
          constructor
          · rcases (hops hnd2).1 with h | h
            · exact Or.inl h
            · exact Or.inr h.1
          · rcases (hops hnd2).2 with h | h
            · exact Or.inl h
            · exact Or.inr h.1
        have hI1' : ∀ x, rm (pushStep fn s c) x = 0 ∨ rm (pushStep fn s c) x < x := by
          intro x; rw [hrmE x]; exact hI1 x
        have hI2' : ∀ x, rm (pushStep fn s c) x ≠ 0 →
            dis (pushStep fn s c) x = true := by
          intro x hx
          rw [hrmE x] at hx
          have hd := hI2 x hx
          by_cases hdm : hasDummyChildren c.op = true
          · rw [hdisD hdm]; exact hd
          · have hnd2 : hasDummyChildren c.op = false := by
              revert hdm; cases hasDummyChildren c.op <;> simp
            rw [hdisN hnd2]
            rw [if_neg ?hne]
            · exact hd
            case hne =>
              have hcx : c.id < x := hI4 x hx c (List.mem_cons_self c rest)
              rintro (rfl | rfl)
              · rcases (hless hnd2).1 with h | h <;> omega
              · rcases (hless hnd2).2 with h | h <;> omega
        have hI3' : ∀ x, rm (pushStep fn s c) x ≠ 0 →
            (dis (pushStep fn s c) (rm (pushStep fn s c) x) = false ∨
             rm (pushStep fn s c) (rm (pushStep fn s c) x) ≠ 0) := by
          intro x hx
          rw [hrmE x] at hx ⊢
          rcases hI3 x hx with h | h
          · exact Or.inl (dis_pf _ h)
          · right; rw [hrmE _]; exact h
        have hI4' : ∀ x, rm (pushStep fn s c) x ≠ 0 →
            ∀ c' ∈ rest, c'.id < x := by
          intro x hx c' h
          rw [hrmE x] at hx
          exact hI4 x hx c' (List.mem_cons_of_mem _ h)
        have hI5' : ∀ x, dis (pushStep fn s c) x = false → x = 0 ∨ x ∈ U := by
          intro x hx
          by_cases hdm : hasDummyChildren c.op = true
          · rw [hdisD hdm] at hx; exact hI5 x hx
          · have hnd2 : hasDummyChildren c.op = false := by
              revert hdm; cases hasDummyChildren c.op <;> simp
            rw [hdisN hnd2] at hx
            by_cases hq : x = c.a ∨ x = c.b
            · rcases hq with rfl | rfl
              · rcases (hops hnd2).1 with h | h
                · exact Or.inl h
                · exact Or.inr h.2
              · rcases (hops hnd2).2 with h | h
                · exact Or.inl h
                · exact Or.inr h.2
            · rw [if_neg hq] at hx; exact hI5 x hx
        obtain ⟨f1, f2, f3, f4⟩ := ih (pushStep fn s c) hokr hpwr
          ⟨hdl', hrl', hI1', hI2', hI3', hI4', hI5'⟩
        have okPersist : ∀ y, (dis s y = false ∨ rm s y ≠ 0) →
            (dis (pushStep fn s c) y = false ∨ rm (pushStep fn s c) y ≠ 0) := by
          intro y hy
          rcases hy with hy | hy
          · exact Or.inl (dis_pf y hy)
          · right; rw [hrmE y]; exact hy
        refine ⟨f1, fun y hy => f2 y (okPersist y hy), ?_, ?_⟩
        · intro y hy hlt
          have hcy : c.id < y := hlt c (List.mem_cons_self c rest)
          apply f3
          · by_cases hdm : hasDummyChildren c.op = true
            · rw [hdisD hdm]; exact hy
            · have hnd2 : hasDummyChildren c.op = false := by
                revert hdm; cases hasDummyChildren c.op <;> simp
              rw [hdisN hnd2]
              rw [if_neg ?hne2]
              · exact hy
              case hne2 =>
                rintro (rfl | rfl)
                · rcases (hless hnd2).1 with h | h <;> omega
                · rcases (hless hnd2).2 with h | h <;> omega
          · intro c' h; exact hlt c' (List.mem_cons_of_mem _ h)
        · intro c' hc' hnd2 hdis
          rcases List.mem_cons.mp hc' with heq | hmem
          · subst heq
            constructor
            · refine f2 c'.a (Or.inl ?_)
              rw [hdisN hnd2]
              rw [if_pos (Or.inl rfl)]
            · refine f2 c'.b (Or.inl ?_)
              rw [hdisN hnd2]
              rw [if_pos (Or.inr rfl)]
          · exact f4 c' hmem hnd2 hdis
      · -- Case R: the clause was remapped to operand o
        have hI1' : ∀ x, rm (pushStep fn s c) x = 0 ∨ rm (pushStep fn s c) x < x := by
          intro x
          rw [hrmR x]
          by_cases hx : x = c.id
          · rw [if_pos hx]; right; omega
          · rw [if_neg hx]; exact hI1 x
        have hI2' : ∀ x, rm (pushStep fn s c) x ≠ 0 →
            dis (pushStep fn s c) x = true := by
          intro x hx
          rw [hrmR x] at hx
          rw [hdisR x]
          by_cases hxid : x = c.id
          · rw [if_pos hxid]
          · rw [if_neg hxid] at hx
            rw [if_neg hxid]
            have hcx : c.id < x := hI4 x hx c (List.mem_cons_self c rest)
            rw [if_neg (by omega : ¬ x = o)]
            exact hI2 x hx
        have hI3' : ∀ x, rm (pushStep fn s c) x ≠ 0 →
            (dis (pushStep fn s c) (rm (pushStep fn s c) x) = false ∨
             rm (pushStep fn s c) (rm (pushStep fn s c) x) ≠ 0) := by
          intro x hx
          rw [hrmR x] at hx ⊢
          by_cases hxid : x = c.id
          · rw [if_pos hxid] at hx ⊢
            left
            rw [hdisR o, if_neg (by omega : ¬ o = c.id), if_pos rfl]
          · rw [if_neg hxid] at hx ⊢
            by_cases hz : rm s x = c.id
            · right
              rw [hrmR _, if_pos hz]
              exact ho0
            · by_cases hzo : rm s x = o
              · left
                rw [hdisR _, if_neg hz, if_pos hzo]
              · rcases hI3 x hx with h | h
                · left
                  rw [hdisR _, if_neg hz, if_neg hzo]
                  exact h
                · right
                  rw [hrmR _, if_neg hz]
                  exact h
        have hI4' : ∀ x, rm (pushStep fn s c) x ≠ 0 →
            ∀ c' ∈ rest, c'.id < x := by
          intro x hx c' h
          rw [hrmR x] at hx
          by_cases hxid : x = c.id
          · rw [hxid]; exact hlt_rest c' h
          · rw [if_neg hxid] at hx
            exact hI4 x hx c' (List.mem_cons_of_mem _ h)
        have hI5' : ∀ x, dis (pushStep fn s c) x = false → x = 0 ∨ x ∈ U := by
          intro x hx
          rw [hdisR x] at hx
          by_cases hxid : x = c.id
          · rw [if_pos hxid] at hx; exact Bool.noConfusion hx
          · rw [if_neg hxid] at hx
            by_cases hxo : x = o
            · right; rw [hxo]; exact hoU
            · rw [if_neg hxo] at hx; exact hI5 x hx
        obtain ⟨f1, f2, f3, f4⟩ := ih (pushStep fn s c) hokr hpwr
          ⟨hdl', hrl', hI1', hI2', hI3', hI4', hI5'⟩
        have okPersist : ∀ y, (dis s y = false ∨ rm s y ≠ 0) →
            (dis (pushStep fn s c) y = false ∨ rm (pushStep fn s c) y ≠ 0) := by
          intro y hy
          by_cases hyid : y = c.id
          · right; rw [hrmR y, if_pos hyid]; exact ho0
          · rcases hy with hy | hy
            · left
              rw [hdisR y, if_neg hyid]
              by_cases hyo : y = o
              · rw [if_pos hyo]
              · rw [if_neg hyo]; exact hy
            · right; rw [hrmR y, if_neg hyid]; exact hy
        refine ⟨f1, fun y hy => f2 y (okPersist y hy), ?_, ?_⟩
        · intro y hy hlt
          have hcy : c.id < y := hlt c (List.mem_cons_self c rest)
          apply f3
          · rw [hdisR y, if_neg (by omega : ¬ y = c.id),
                if_neg (by omega : ¬ y = o)]
            exact hy
          · intro c' h; exact hlt c' (List.mem_cons_of_mem _ h)
        · intro c' hc' hnd2 hdis
          rcases List.mem_cons.mp hc' with heq | hmem
          · exfalso
            have ht : dis (pushStep fn s c) c.id = true := by
              rw [hdisR c.id, if_pos rfl]
            have ht2 := f3 c.id ht hlt_rest
            rw [heq] at hdis
            rw [hdis] at ht2
            exact Bool.noConfusion ht2
          · exact f4 c' hmem hnd2 hdis

theorem remapChain_fix (remap : List Nat) (x : Nat)
    (h : remap.getD x 0 = 0) : ∀ fuel, remapChain remap fuel x = x := by
  intro fuel
  cases fuel with
  | zero => rfl
  | succ f => simp only [remapChain, if_pos h]

/-- Under the strictly-decreasing remap invariant, the remap chain reaches a
fixed point within x steps: the result is independent of any fuel of at
least x, and the entry at the result is 0. -/
theorem remapChain_spec (remap : List Nat)
    (H1 : ∀ x, remap.getD x 0 = 0 ∨ remap.getD x 0 < x) :
    ∀ x, (∀ fuel, x ≤ fuel → remapChain remap fuel x = remapChain remap x x) ∧
         remap.getD (remapChain remap x x) 0 = 0 := by
  intro x
  induction x using Nat.strong_induction_on with
  | _ x ih =>
    by_cases h0 : remap.getD x 0 = 0
    · constructor
      · intro fuel _
        rw [remapChain_fix remap x h0, remapChain_fix remap x h0]
      · rw [remapChain_fix remap x h0]
        exact h0
    · have hlt : remap.getD x 0 < x := by
        rcases H1 x with h | h
        · exact absurd h h0
        · exact h
      obtain ⟨ihf, ihz⟩ := ih (remap.getD x 0) hlt
      have hx1 : 1 ≤ x := by omega
      obtain ⟨g, hg⟩ : ∃ g, x = g + 1 := ⟨x - 1, by omega⟩
      subst hg
      have hxx : remapChain remap (g + 1) (g + 1) =
          remapChain remap (remap.getD (g + 1) 0) (remap.getD (g + 1) 0) := by
        rw [remapChain, if_neg h0]
        exact ihf g (by omega)
      constructor
      · intro fuel hf
        obtain ⟨f, rfl⟩ : ∃ f, fuel = f + 1 := ⟨fuel - 1, by omega⟩
        rw [remapChain, if_neg h0, hxx]
        exact ihf f (by omega)
      · rw [hxx]
        exact ihz

/-- The chain result never exceeds its start. -/
theorem remapChain_le (remap : List Nat)
    (H1 : ∀ x, remap.getD x 0 = 0 ∨ remap.getD x 0 < x) :
    ∀ x, remapChain remap x x ≤ x := by
  intro x
  induction x using Nat.strong_induction_on with
  | _ x ih =>
    by_cases h0 : remap.getD x 0 = 0
    · rw [remapChain_fix remap x h0]
    · have hlt : remap.getD x 0 < x := by
        rcases H1 x with h | h
        · exact absurd h h0
        · exact h
      obtain ⟨g, hg⟩ : ∃ g, x = g + 1 := ⟨x - 1, by omega⟩
      subst hg
      rw [remapChain, if_neg h0]
      have h2 := (remapChain_spec remap H1 (remap.getD (g + 1) 0)).1 g
        (by omega)
      rw [h2]
      have h3 := ih (remap.getD (g + 1) 0) hlt
      omega

/-- A chain started on an enabled-or-remapped entry ends on an entry that is
enabled and not remapped (so its clause is kept in the emitted subtape). -/
theorem chase_good (f : PushScan)
    (HI1 : ∀ x, rm f x = 0 ∨ rm f x < x)
    (HI3 : ∀ x, rm f x ≠ 0 → (dis f (rm f x) = false ∨ rm f (rm f x) ≠ 0)) :
    ∀ y, (dis f y = false ∨ rm f y ≠ 0) →
      dis f (remapChain f.remap y y) = false ∧
      rm f (remapChain f.remap y y) = 0 := by
  intro y
  induction y using Nat.strong_induction_on with
  | _ y ih =>
    intro hy
    by_cases h0 : rm f y = 0
    · rcases hy with hy | hy
      · rw [remapChain_fix f.remap y h0]
        exact ⟨hy, h0⟩
      · exact absurd h0 hy
    · have hlt : rm f y < y := by
        rcases HI1 y with h | h
        · exact absurd h h0
        · exact h
      obtain ⟨g, hg⟩ : ∃ g, y = g + 1 := ⟨y - 1, by omega⟩
      subst hg
      have hstep : remapChain f.remap (g + 1) (g + 1) =
          remapChain f.remap (rm f (g + 1)) (rm f (g + 1)) := by
        rw [remapChain]
        rw [if_neg (show ¬ f.remap.getD (g + 1) 0 = 0 from h0)]
        exact (remapChain_spec f.remap
          (fun x => HI1 x) (f.remap.getD (g + 1) 0)).1 g (by
            have : rm f (g + 1) < g + 1 := hlt
            simp only [rm] at this
            omega)
      rw [hstep]
      exact ih (rm f (g + 1)) hlt (HI3 (g + 1) h0)

/-- The constructor fold assigns dense, increasing ids (front-pushed, so the
clause list carries them in decreasing order) and, on topological input,
every non-dummy operand is null or a smaller previously assigned id. -/
theorem buildSteps_inv :
    ∀ (rest : List FlatNode) (st : BuildSt) (p0 : Nat),
      st.k = p0 →
      (∀ i < rest.length,
        (match (rest.getD i default).lhs with
         | some j => j < p0 + i
         | none => True) ∧
        (match (rest.getD i default).rhs with
         | some j => j < p0 + i
         | none => True)) →
      st.tp.map Clause.id = (List.range' 1 st.k).reverse →
      (∀ c ∈ st.tp, 1 ≤ c.id ∧ c.id ≤ st.k ∧
        (hasDummyChildren c.op = false →
          (c.a = 0 ∨ (c.a < c.id ∧ 1 ≤ c.a)) ∧
          (c.b = 0 ∨ (c.b < c.id ∧ 1 ≤ c.b)))) →
      (rest.foldl buildStep st).k = p0 + rest.length ∧
      (rest.foldl buildStep st).tp.map Clause.id =
        (List.range' 1 (rest.foldl buildStep st).k).reverse ∧
      (∀ c ∈ (rest.foldl buildStep st).tp, 1 ≤ c.id ∧
        c.id ≤ (rest.foldl buildStep st).k ∧
        (hasDummyChildren c.op = false →
          (c.a = 0 ∨ (c.a < c.id ∧ 1 ≤ c.a)) ∧
          (c.b = 0 ∨ (c.b < c.id ∧ 1 ≤ c.b)))) := by
  intro rest
  induction rest with
  | nil =>
    intro st p0 hk _ hmap hcl
    exact ⟨by simpa using hk, hmap, hcl⟩
  | cons nd rest ih =>
    intro st p0 hk hpos hmap hcl
    have hpos0 := hpos 0 (by simp)
    simp only [List.getD_cons_zero, Nat.add_zero] at hpos0
    -- facts about the one new clause
    have hstep_k : (buildStep st nd).k = st.k + 1 := by
      simp only [buildStep]
      split
      · rfl
      · split
        · rfl
        · split
          · rfl
          · split
            · rfl
            · rfl
    have hstep_tp : ∃ cl : Clause, (buildStep st nd).tp = cl :: st.tp ∧
        cl.id = st.k + 1 ∧
        (hasDummyChildren cl.op = false →
          (cl.a = 0 ∨ (cl.a < cl.id ∧ 1 ≤ cl.a)) ∧
          (cl.b = 0 ∨ (cl.b < cl.id ∧ 1 ≤ cl.b))) := by
      simp only [buildStep]
      split
      · refine ⟨⟨nd.op, st.k + 1, optId nd.lhs, optId nd.rhs⟩, rfl, rfl, ?_⟩
        intro _
        constructor
        · cases hl : nd.lhs with
          | none => exact Or.inl rfl
          | some j =>
            right
            have := hpos0.1
            rw [hl] at this
            simp only [optId]
            omega
        · cases hl : nd.rhs with
          | none => exact Or.inl rfl
          | some j =>
            right
            have := hpos0.2
            rw [hl] at this
            simp only [optId]
            omega
      · split
        · refine ⟨⟨nd.op, st.k + 1, st.constants.length, 0⟩, rfl, rfl, ?_⟩
          intro hnd
          rename_i hop
          rw [hop] at hnd
          exact Bool.noConfusion hnd
        · split
          · refine ⟨⟨nd.op, st.k + 1, st.vars.length, 0⟩, rfl, rfl, ?_⟩
            intro hnd
            rename_i hop
            rw [hop] at hnd
            exact Bool.noConfusion hnd
          · split
            · refine ⟨⟨nd.op, st.k + 1, st.oracles, 0⟩, rfl, rfl, ?_⟩
              intro hnd
              rename_i hop
              rw [hop] at hnd
              exact Bool.noConfusion hnd
            · exact ⟨⟨nd.op, st.k + 1, 0, 0⟩, rfl, rfl,
                fun _ => ⟨Or.inl rfl, Or.inl rfl⟩⟩
    obtain ⟨cl, htp, hclid, hclops⟩ := hstep_tp
    have hmap' : (buildStep st nd).tp.map Clause.id =
        (List.range' 1 (buildStep st nd).k).reverse := by
      rw [htp, hstep_k, List.map_cons, hclid, hmap]
      rw [List.range'_concat]
      simp only [List.reverse_append, List.reverse_singleton, one_mul]
      simp
      omega
    have hcl' : ∀ c ∈ (buildStep st nd).tp, 1 ≤ c.id ∧
        c.id ≤ (buildStep st nd).k ∧
        (hasDummyChildren c.op = false →
          (c.a = 0 ∨ (c.a < c.id ∧ 1 ≤ c.a)) ∧
          (c.b = 0 ∨ (c.b < c.id ∧ 1 ≤ c.b))) := by
      intro c hc
      rw [htp] at hc
      rw [hstep_k]
      rcases List.mem_cons.mp hc with rfl | hmem
      · exact ⟨by omega, by omega, hclops⟩
      · obtain ⟨h1, h2, h3⟩ := hcl c hmem
        exact ⟨h1, by omega, h3⟩
    have hpos' : ∀ i < rest.length,
        (match (rest.getD i default).lhs with
         | some j => j < (buildStep st nd).k + i
         | none => True) ∧
        (match (rest.getD i default).rhs with
         | some j => j < (buildStep st nd).k + i
         | none => True) := by
      intro i hi
      have := hpos (i + 1) (by simp; omega)
      simp only [List.getD_cons_succ] at this
      rw [hstep_k, hk]
      constructor
      · have h1 := this.1
        revert h1
        cases (rest.getD i default).lhs <;> simp <;> omega
      · have h1 := this.2
        revert h1
        cases (rest.getD i default).rhs <;> simp <;> omega
    have := ih (buildStep st nd) (p0 + 1) (by rw [hstep_k, hk]) ?_ hmap' hcl'
    · obtain ⟨z1, z2, z3⟩ := this
      refine ⟨?_, z2, z3⟩
      simp only [List.foldl_cons] at z1 ⊢
      rw [z1]
      simp only [List.length_cons]
      omega
    · intro i hi
      have h2 := hpos' i hi
      rw [hstep_k, hk] at h2
      exact h2

/-- On topological input, the constructed base tape is well-formed: ids
strictly decrease along the forward walk and every non-dummy operand is null
or a smaller id occurring later; all ids are below num_clauses. -/
theorem buildTape_wf (flat : List FlatNode) (hf : TopoFlat flat) :
    WfT ((buildTape flat).tapes.getD 0 default).t ∧
    (∀ c ∈ ((buildTape flat).tapes.getD 0 default).t,
      c.id < (buildTape flat).numClauses) := by
  have hinit := buildSteps_inv flat {} 0 rfl ?_ (by simp) (by simp)
  · obtain ⟨hk, hmap, hcl⟩ := hinit
    simp only [Nat.zero_add] at hk
    have hbase : ((buildTape flat).tapes.getD 0 default).t =
        (flat.foldl buildStep {}).tp := rfl
    have hnum : (buildTape flat).numClauses = flat.length + 1 := rfl
    rw [hbase, hnum]
    have hmem : ∀ x, 1 ≤ x → x ≤ flat.length →
        x ∈ (flat.foldl buildStep {}).tp.map Clause.id := by
      intro x h1 h2
      rw [hmap, List.mem_reverse, List.mem_range'_1]
      omega
    refine ⟨⟨?_, ?_⟩, ?_⟩
    · rw [hmap, List.pairwise_reverse]
      rw [hk]
      exact List.pairwise_lt_range' 1 flat.length
    · intro c hc
      obtain ⟨h1, h2, h3⟩ := hcl c hc
      rw [hk] at h2
      refine ⟨h1, ?_⟩
      intro hnd
      obtain ⟨ha, hb⟩ := h3 hnd
      constructor
      · rcases ha with h | ⟨hlt, h1a⟩
        · exact Or.inl h
        · exact Or.inr ⟨hlt, hmem c.a h1a (by omega)⟩
      · rcases hb with h | ⟨hlt, h1b⟩
        · exact Or.inl h
        · exact Or.inr ⟨hlt, hmem c.b h1b (by omega)⟩
    · intro c hc
      obtain ⟨h1, h2, _⟩ := hcl c hc
      rw [hk] at h2
      omega
  · intro i hi
    have := hf i hi
    simpa using this

theorem getD_replicate_self {α : Type} (n x : Nat) (v : α) :
    (List.replicate n v).getD x v = v := by
  induction n generalizing x with
  | zero => rfl
  | succ m ih =>
    cases x with
    | zero => rfl
    | succ y =>
      rw [List.replicate_succ, List.getD_cons_succ]
      exact ih y

theorem initScan_dis (L : Nat) (t : List Clause) (x : Nat)
    (h : dis (initScan L t) x = false) : x = (t.headD default).id := by
  by_contra hne
  simp only [dis, initScan] at h
  rw [getD_set_ne _ _ _ _ _ hne, getD_replicate_self] at h
  exact Bool.noConfusion h

/-- The initial scratch state satisfies the scan invariants. -/
theorem initScan_StInv (L : Nat) (t : List Clause) :
    StInv L (t.map Clause.id) t (initScan L t) := by
  have hrm : ∀ x, rm (initScan L t) x = 0 := by
    intro x
    simp only [rm, initScan]
    exact getD_replicate_self L x 0
  refine ⟨by simp [initScan], by simp [initScan],
    fun x => Or.inl (hrm x), fun x hx => absurd (hrm x) hx,
    fun x hx => absurd (hrm x) hx, fun x hx => absurd (hrm x) hx, ?_⟩
  intro x hx
  have hx2 := initScan_dis L t x hx
  cases t with
  | nil =>
    left
    rw [hx2]
    rfl
  | cons c t' =>
    right
    rw [hx2]
    simp only [List.headD_cons]
    exact List.mem_map_of_mem _ (List.mem_cons_self c t')

theorem filterMap_id_sublist (g : Clause → Option Clause)
    (hg : ∀ c c', g c = some c' → c'.id = c.id) (p : List Clause) :
    List.Sublist ((p.filterMap g).map Clause.id) (p.map Clause.id) := by
  induction p with
  | nil => simp
  | cons c p ih =>
    rw [List.filterMap_cons]
    cases hgc : g c with
    | none =>
      rw [List.map_cons]
      exact ih.cons _
    | some c' =>
      rw [List.map_cons, List.map_cons, hg c c' hgc]
      exact ih.cons₂ _

/-- The emission keeps clause ids unchanged. -/
theorem pushEmit_keeps_id (s : PushScan) (c c' : Clause)
    (h : (if s.disabled.getD c.id true then none
          else if c.op = .ORACLE then some c
          else some { c with a := remapChain s.remap c.a c.a,
                             b := remapChain s.remap c.b c.b }) = some c') :
    c'.id = c.id := by
  split at h
  · exact Option.noConfusion h
  · split at h
    · rw [← Option.some_inj.mp h]
    · rw [← Option.some_inj.mp h]

theorem pushEmit_ids_sublist (s : PushScan) (p : List Clause) :
    List.Sublist ((pushEmit s p).map Clause.id) (p.map Clause.id) :=
  filterMap_id_sublist _ (fun c c' h => pushEmit_keeps_id s c c' h) p

/-- A clause of the source tape that ends enabled contributes its id to the
emitted subtape. -/
theorem pushEmit_mem_of_dis (s : PushScan) (p : List Clause) (d : Clause)
    (hd : d ∈ p) (hdis : dis s d.id = false) :
    d.id ∈ (pushEmit s p).map Clause.id := by
  rw [List.mem_map]
  have hcond : ¬ (s.disabled.getD d.id true = true) := by
    rw [show s.disabled.getD d.id true = dis s d.id from rfl, hdis]
    simp
  by_cases ho : d.op = .ORACLE
  · refine ⟨d, List.mem_filterMap.mpr ⟨d, hd, ?_⟩, rfl⟩
    rw [if_neg hcond, if_pos ho]
  · have he : (if s.disabled.getD d.id true then none
        else if d.op = .ORACLE then some d
        else some { d with a := remapChain s.remap d.a d.a, b := remapChain s.remap d.b d.b }) = some { d with a := remapChain s.remap d.a d.a, b := remapChain s.remap d.b d.b } := by
      rw [if_neg hcond, if_neg ho]
    exact ⟨_, List.mem_filterMap.mpr ⟨d, hd, he⟩, rfl⟩

/-- A push's emitted subtape is well-formed whenever the source subtape is:
the kept clauses keep their decreasing id order, and every rewritten operand
chain ends at the null id or at an enabled clause with a smaller id that is
itself kept later in the forward walk. -/
theorem pushEmit_wf (fn : Opcode → Nat → Nat → Nat → Keep) (hfn : FnContract fn)
    (L : Nat) (t : List Clause) (hwf : WfT t) (hL : ∀ c ∈ t, c.id < L) :
    WfT (pushEmit (scanList fn (initScan L t) t) t) ∧
    (∀ c ∈ pushEmit (scanList fn (initScan L t) t) t, c.id < L) := by
  obtain ⟨hpw, hcl⟩ := hwf
  have hok : ∀ c ∈ t, ClauseOkU (t.map Clause.id) L c := by
    intro c hc
    obtain ⟨h1, h2⟩ := hcl c hc
    exact ⟨h1, List.mem_map_of_mem _ hc, hL c hc, h2⟩
  obtain ⟨⟨hdl, hrl, hI1, hI2, hI3, _, hI5⟩, _, _, f4⟩ :=
    scan_main fn hfn L (t.map Clause.id) t (initScan L t) hok hpw
      (initScan_StInv L t)
  have hGood := chase_good (scanList fn (initScan L t) t) hI1 hI3
  have hchainle := remapChain_le (scanList fn (initScan L t) t).remap hI1
  have hrm0z : rm (scanList fn (initScan L t) t) 0 = 0 := by
    rcases hI1 0 with h | h
    · exact h
    · omega
  have hmem_of_good : ∀ e, e ≠ 0 →
      dis (scanList fn (initScan L t) t) e = false →
      e ∈ (pushEmit (scanList fn (initScan L t) t) t).map Clause.id := by
    intro e he0 hdis
    rcases hI5 e hdis with h | h
    · exact absurd h he0
    · obtain ⟨d, hd, hdid⟩ := List.mem_map.mp h
      rw [← hdid]
      exact pushEmit_mem_of_dis _ t d hd (by rw [hdid]; exact hdis)
  have hmain : ∀ c' ∈ pushEmit (scanList fn (initScan L t) t) t,
      (1 ≤ c'.id ∧
        (hasDummyChildren c'.op = false →
          opOk ((pushEmit (scanList fn (initScan L t) t) t).map Clause.id)
            c'.id c'.a ∧
          opOk ((pushEmit (scanList fn (initScan L t) t) t).map Clause.id)
            c'.id c'.b)) ∧
      c'.id < L := by
    intro c' hc'
    obtain ⟨c, hc, hgc⟩ := List.mem_filterMap.mp hc'
    have hguard : dis (scanList fn (initScan L t) t) c.id = false ∧
        ((c.op = .ORACLE ∧ c' = c) ∨ (c.op ≠ .ORACLE ∧
          c' = { c with
            a := remapChain (scanList fn (initScan L t) t).remap c.a c.a,
            b := remapChain (scanList fn (initScan L t) t).remap c.b c.b })) := by
      by_cases hcd : (scanList fn (initScan L t) t).disabled.getD c.id true
      · rw [if_pos hcd] at hgc
        exact Option.noConfusion hgc
      · refine ⟨dis_false_of_getD _ c.id hcd, ?_⟩
        by_cases ho : c.op = .ORACLE
        · rw [if_neg hcd, if_pos ho] at hgc
          exact Or.inl ⟨ho, (Option.some_inj.mp hgc).symm⟩
        · rw [if_neg hcd, if_neg ho] at hgc
          exact Or.inr ⟨ho, (Option.some_inj.mp hgc).symm⟩
    obtain ⟨hdisc, hcase⟩ := hguard
    obtain ⟨hc1, hcops⟩ := hcl c hc
    rcases hcase with ⟨ho, heq⟩ | ⟨ho, heq⟩
    · rw [heq]
      refine ⟨⟨hc1, ?_⟩, hL c hc⟩
      intro hnd
      rw [ho] at hnd
      exact Bool.noConfusion hnd
    · subst heq
      refine ⟨⟨hc1, ?_⟩, hL c hc⟩
      intro hnd
      have hvisit := f4 c hc hnd hdisc
      constructor
      · -- operand a
        have hgood := hGood c.a hvisit.1
        by_cases hA0 : remapChain (scanList fn (initScan L t) t).remap c.a c.a = 0
        · exact Or.inl hA0
        · right
          have hca0 : c.a ≠ 0 := by
            intro h
            rw [h, remapChain_fix _ 0 hrm0z] at hA0
            exact hA0 rfl
          have hlt : c.a < c.id := by
            rcases (hcops hnd).1 with h | h
            · exact absurd h hca0
            · exact h.1
          refine ⟨?_, hmem_of_good _ hA0 hgood.1⟩
          show remapChain (scanList fn (initScan L t) t).remap c.a c.a < c.id
          have := hchainle c.a
          omega
      · -- operand b
        have hgood := hGood c.b hvisit.2
        by_cases hB0 : remapChain (scanList fn (initScan L t) t).remap c.b c.b = 0
        · exact Or.inl hB0
        · right
          have hcb0 : c.b ≠ 0 := by
            intro h
            rw [h, remapChain_fix _ 0 hrm0z] at hB0
            exact hB0 rfl
          have hlt : c.b < c.id := by
            rcases (hcops hnd).2 with h | h
            · exact absurd h hcb0
            · exact h.1
          refine ⟨?_, hmem_of_good _ hB0 hgood.1⟩
          show remapChain (scanList fn (initScan L t) t).remap c.b c.b < c.id
          have := hchainle c.b
          omega
  refine ⟨⟨?_, fun c' h => (hmain c' h).1⟩, fun c' h => (hmain c' h).2⟩
  exact hpw.sublist (pushEmit_ids_sublist _ t)

theorem default_subtape_wf (L : Nat) :
    WfT (default : Subtape).t ∧ ∀ c ∈ (default : Subtape).t, c.id < L :=
  ⟨⟨List.Pairwise.nil, fun c hc => absurd hc (List.not_mem_nil c)⟩,
   fun c hc => absurd hc (List.not_mem_nil c)⟩

theorem getD_mem_or {α : Type} [Inhabited α] (l : List α) (n : Nat) :
    l.getD n default ∈ l ∨ l.getD n default = default := by
  by_cases h : n < l.length
  · left
    rw [List.getD_eq_getElem l default h]
    exact List.getElem_mem h
  · right
    exact List.getD_eq_default _ _ (by omega)

/-- Push preserves tape-level well-formedness (for contract-satisfying
classifiers). -/
theorem tapeWf_push (tp : Tape) (fn : Opcode → Nat → Nat → Nat → Keep)
    (hfn : FnContract fn) (ty : TapeType) (r : Region)
    (h : TapeWf tp) : TapeWf (tp.push fn ty r) := by
  have hcur : WfT (tp.tapes.getD tp.cursor default).t ∧
      ∀ c ∈ (tp.tapes.getD tp.cursor default).t, c.id < tp.numClauses := by
    rcases getD_mem_or tp.tapes tp.cursor with hm | hd
    · exact h _ hm
    · rw [hd]
      exact default_subtape_wf tp.numClauses
  intro sub hsub
  by_cases hdm : (tp.tapes.getD tp.cursor default).dummy ≠ 0
  · have hps : tp.push fn ty r =
        { tp with
          tapes := tp.tapes.set tp.cursor
            { tp.tapes.getD tp.cursor default with
              dummy := (tp.tapes.getD tp.cursor default).dummy + 1 } } := by
      simp only [Tape.push, if_pos hdm]
    rw [hps] at hsub ⊢
    rcases List.mem_or_eq_of_mem_set hsub with hm | he
    · exact h sub hm
    · subst he
      exact ⟨hcur.1, fun c hc => hcur.2 c hc⟩
  · by_cases hlt : tp.cursor + 1 < tp.tapes.length
    · have hps : tp.push fn ty r =
          { tp with
            tapes := tp.tapes.set (tp.cursor + 1)
              { tp.tapes.getD (tp.cursor + 1) default with
                t := pushEmit (scanList fn
                  (initScan tp.numClauses (tp.tapes.getD tp.cursor default).t)
                  (tp.tapes.getD tp.cursor default).t)
                  (tp.tapes.getD tp.cursor default).t,
                type := ty,
                dummy := if (scanList fn
                  (initScan tp.numClauses (tp.tapes.getD tp.cursor default).t)
                  (tp.tapes.getD tp.cursor default).t).hasChoices then 0 else 1,
                X := r.X, Y := r.Y, Z := r.Z },
            cursor := tp.cursor + 1 } := by
        simp only [Tape.push, if_neg hdm]
        rw [if_pos hlt]
      rw [hps] at hsub ⊢
      rcases List.mem_or_eq_of_mem_set hsub with hm | he
      · exact h sub hm
      · subst he
        obtain ⟨hw, hb⟩ := pushEmit_wf fn hfn tp.numClauses
          (tp.tapes.getD tp.cursor default).t hcur.1 hcur.2
        exact ⟨hw, fun c hc => hb c hc⟩
    · have hps : tp.push fn ty r =
          { tp with
            tapes := tp.tapes ++
              [{ t := pushEmit (scanList fn
                   (initScan tp.numClauses (tp.tapes.getD tp.cursor default).t)
                   (tp.tapes.getD tp.cursor default).t)
                   (tp.tapes.getD tp.cursor default).t,
                 type := ty,
                 dummy := if (scanList fn
                   (initScan tp.numClauses (tp.tapes.getD tp.cursor default).t)
                   (tp.tapes.getD tp.cursor default).t).hasChoices then 0 else 1,
                 m := [], X := r.X, Y := r.Y, Z := r.Z }],
            cursor := tp.cursor + 1 } := by
        simp only [Tape.push, if_neg hdm]
        rw [if_neg hlt]
      rw [hps] at hsub ⊢
      rcases List.mem_append.mp hsub with hm | he
      · exact h sub hm
      · rw [List.mem_singleton] at he
        subst he
        obtain ⟨hw, hb⟩ := pushEmit_wf fn hfn tp.numClauses
          (tp.tapes.getD tp.cursor default).t hcur.1 hcur.2
        exact ⟨hw, fun c hc => hb c hc⟩

/-- Pop preserves tape-level well-formedness. -/
theorem tapeWf_pop (tp : Tape) (h : TapeWf tp) : TapeWf tp.pop := by
  intro sub hsub
  by_cases hdm : 1 < (tp.tapes.getD tp.cursor default).dummy
  · have hps : tp.pop =
        { tp with
          tapes := tp.tapes.set tp.cursor
            { tp.tapes.getD tp.cursor default with
              dummy := (tp.tapes.getD tp.cursor default).dummy - 1 } } := by
      simp only [Tape.pop, if_pos hdm]
    rw [hps] at hsub ⊢
    rcases List.mem_or_eq_of_mem_set hsub with hm | he
    · exact h sub hm
    · subst he
      have hcur : WfT (tp.tapes.getD tp.cursor default).t ∧
          ∀ c ∈ (tp.tapes.getD tp.cursor default).t, c.id < tp.numClauses := by
        rcases getD_mem_or tp.tapes tp.cursor with hm | hd
        · exact h _ hm
        · rw [hd]
          exact default_subtape_wf tp.numClauses
      exact ⟨hcur.1, fun c hc => hcur.2 c hc⟩
  · have hps : tp.pop = { tp with cursor := tp.cursor - 1 } := by
      simp only [Tape.pop, if_neg hdm]
    rw [hps] at hsub ⊢
    exact h sub hsub

/-- Any sequence of contract-satisfying pushes and pops preserves tape-level
well-formedness. -/
theorem tapeWf_runOps (ops : List TapeOp) :
    ∀ tp : Tape, TapeWf tp → OpsContract ops → TapeWf (runOps tp ops) := by
  induction ops with
  | nil => intro tp h _; exact h
  | cons op rest ih =>
    intro tp h hc
    have hstep : TapeWf (runOp tp op) := by
      cases op with
      | push fn ty r =>
        exact tapeWf_push tp fn (hc (TapeOp.push fn ty r)
          (List.mem_cons_self _ _)) ty r h
      | pop => exact tapeWf_pop tp h
    have hc' : OpsContract rest := fun o ho => hc o (List.mem_cons_of_mem _ ho)
    exact ih (runOp tp op) hstep hc'

/-- The base tape state is well-formed on topological input. -/
theorem tapeWf_buildTape (flat : List FlatNode) (hf : TopoFlat flat) :
    TapeWf (buildTape flat) := by
  intro sub hsub
  have : (buildTape flat).tapes = [(buildTape flat).tapes.getD 0 default] := rfl
  rw [this, List.mem_singleton] at hsub
  subst hsub
  exact buildTape_wf flat hf

/-! ### Register allocator lemmas (assignSlots) -/

theorem alookup_mem_snd {l : List (Nat × Nat)} {k v : Nat}
    (h : alookup l k = some v) : v ∈ l.map Prod.snd := by
  induction l with
  | nil => simp [alookup] at h
  | cons e es ih =>
    by_cases he : e.1 = k
    · simp only [alookup, if_pos he] at h
      simp only [List.map_cons, List.mem_cons]
      exact Or.inl (Option.some.inj h).symm
    · simp only [alookup, if_neg he] at h
      simp only [List.map_cons, List.mem_cons]
      exact Or.inr (ih h)

theorem alookup_cons_ne (e : Nat × Nat) (l : List (Nat × Nat)) (k : Nat)
    (h : e.1 ≠ k) : alookup (e :: l) k = alookup l k := by
  simp only [alookup, if_neg h]

theorem alookup_cons_self (e : Nat × Nat) (l : List (Nat × Nat)) :
    alookup (e :: l) e.1 = some e.2 := by
  simp [alookup]

theorem alookup_aremove_ne (l : List (Nat × Nat)) (k k' : Nat)
    (h : k' ≠ k) : alookup (aremove l k) k' = alookup l k' := by
  induction l with
  | nil => rfl
  | cons e es ih =>
    by_cases he : e.1 = k
    · have h1 : aremove (e :: es) k = aremove es k := by
        simp [aremove, he]
      have h2 : e.1 ≠ k' := by
        rw [he]
        exact fun hh => h hh.symm
      rw [h1, ih, alookup_cons_ne e es k' h2]
    · have h1 : aremove (e :: es) k = e :: aremove es k := by
        simp [aremove, he]
      rw [h1]
      by_cases he2 : e.1 = k'
      · simp only [alookup, if_pos he2]
      · rw [alookup_cons_ne e _ k' he2, alookup_cons_ne e es k' he2, ih]

theorem alookup_split {l : List (Nat × Nat)} {k v : Nat}
    (h : alookup l k = some v) :
    ∃ l1 l2, l = l1 ++ (k, v) :: l2 ∧ ∀ e ∈ l1, e.1 ≠ k := by
  induction l with
  | nil => simp [alookup] at h
  | cons e es ih =>
    obtain ⟨e1, e2⟩ := e
    by_cases he : e1 = k
    · simp only [alookup, if_pos he] at h
      refine ⟨[], es, ?_, by simp⟩
      rw [← he, ← Option.some.inj h]
      rfl
    · simp only [alookup, if_neg he] at h
      obtain ⟨l1, l2, heq, hne⟩ := ih h
      refine ⟨(e1, e2) :: l1, l2, by rw [heq]; rfl, ?_⟩
      intro x hx
      rcases List.mem_cons.mp hx with hx | hx
      · rw [hx]
        exact he
      · exact hne x hx

theorem aremove_split {l1 l2 : List (Nat × Nat)} {k v : Nat}
    (hnd : ((l1 ++ (k, v) :: l2).map Prod.fst).Nodup)
    (hne : ∀ e ∈ l1, e.1 ≠ k) :
    aremove (l1 ++ (k, v) :: l2) k = l1 ++ l2 := by
  have hk2 : ∀ e ∈ l2, e.1 ≠ k := by
    intro e he hek
    rw [List.map_append, List.map_cons] at hnd
    have hnd2 := hnd.of_append_right
    have : k ∈ l2.map Prod.fst := hek ▸ List.mem_map_of_mem Prod.fst he
    exact (List.nodup_cons.mp hnd2).1 this
  simp only [aremove, List.filter_append, List.filter_cons]
  have h0 : (decide (((k, v) : Nat × Nat).1 ≠ k)) = false := by simp
  rw [h0]
  rw [List.filter_eq_self.mpr (fun a ha => by simpa using hne a ha),
      List.filter_eq_self.mpr (fun a ha => by simpa using hk2 a ha)]
  simp

theorem allocStep_skip (st : AllocSt) (e : Nat × Nat × Nat)
    (h : e.2.2 = 0) : allocStep st e = st := by
  simp [allocStep, h]

theorem allocStep_drop_some (st : AllocSt) (e : Nat × Nat × Nat) (slot : Nat)
    (hk : e.2.2 ≠ 0) (hb : e.2.1 = 0)
    (hs : alookup st.active e.2.2 = some slot) :
    allocStep st e = { st with active := aremove st.active e.2.2,
                               inactive := insert slot st.inactive } := by
  simp [allocStep, hk, hb, hs]

theorem allocStep_drop_none (st : AllocSt) (e : Nat × Nat × Nat)
    (hk : e.2.2 ≠ 0) (hb : e.2.1 = 0)
    (hs : alookup st.active e.2.2 = none) : allocStep st e = st := by
  simp [allocStep, hk, hb, hs]

theorem allocStep_load_nonempty (st : AllocSt) (e : Nat × Nat × Nat)
    (hk : e.2.2 ≠ 0) (hb : e.2.1 ≠ 0) (h : st.inactive.Nonempty) :
    allocStep st e =
      { st with active := (e.2.2, st.inactive.min' h) :: st.active,
                assigned := (e.2.2, st.inactive.min' h) :: st.assigned,
                inactive := st.inactive.erase (st.inactive.min' h) } := by
  simp [allocStep, hk, hb, h]

theorem allocStep_load_empty (st : AllocSt) (e : Nat × Nat × Nat)
    (hk : e.2.2 ≠ 0) (hb : e.2.1 ≠ 0) (h : ¬ st.inactive.Nonempty) :
    allocStep st e =
      { st with active := (e.2.2, st.active.length) :: st.active,
                assigned := (e.2.2, st.active.length) :: st.assigned } := by
  simp [allocStep, hk, hb, h]

theorem allocStep_other_key (st : AllocSt) (e : Nat × Nat × Nat) (i : Nat)
    (h : e.2.2 ≠ i) :
    alookup (allocStep st e).active i = alookup st.active i ∧
    alookup (allocStep st e).assigned i = alookup st.assigned i := by
  by_cases hk : e.2.2 = 0
  · rw [allocStep_skip st e hk]
    exact ⟨rfl, rfl⟩
  · by_cases hb : e.2.1 = 0
    · cases hs : alookup st.active e.2.2 with
      | none =>
        rw [allocStep_drop_none st e hk hb hs]
        exact ⟨rfl, rfl⟩
      | some slot =>
        rw [allocStep_drop_some st e slot hk hb hs]
        exact ⟨alookup_aremove_ne _ _ _ (fun hh => h hh.symm), rfl⟩
    · by_cases hne : st.inactive.Nonempty
      · rw [allocStep_load_nonempty st e hk hb hne]
        exact ⟨alookup_cons_ne _ _ _ h, alookup_cons_ne _ _ _ h⟩
      · rw [allocStep_load_empty st e hk hb hne]
        exact ⟨alookup_cons_ne _ _ _ h, alookup_cons_ne _ _ _ h⟩

theorem allocStep_assigned_nonload (st : AllocSt) (e : Nat × Nat × Nat)
    (i : Nat) (h : e.2.1 ≠ 0 → e.2.2 ≠ i) :
    alookup (allocStep st e).assigned i = alookup st.assigned i := by
  by_cases hb0 : e.2.1 = 0
  · by_cases hk : e.2.2 = 0
    · rw [allocStep_skip st e hk]
    · cases hs : alookup st.active e.2.2 with
      | none => rw [allocStep_drop_none st e hk hb0 hs]
      | some slot => rw [allocStep_drop_some st e slot hk hb0 hs]
  · exact (allocStep_other_key st e i (h hb0)).2

theorem fold_persist (l : List (Nat × Nat × Nat)) :
    ∀ (st : AllocSt) (i v : Nat), (∀ e ∈ l, e.2.2 ≠ i) →
      alookup st.active i = some v → alookup st.assigned i = some v →
      alookup (l.foldl allocStep st).active i = some v ∧
      alookup (l.foldl allocStep st).assigned i = some v := by
  induction l with
  | nil => intro st i v _ h1 h2; exact ⟨h1, h2⟩
  | cons e l ih =>
    intro st i v hne h1 h2
    obtain ⟨ha, hb⟩ := allocStep_other_key st e i (hne e (List.mem_cons_self _ _))
    exact ih (allocStep st e) i v
      (fun x hx => hne x (List.mem_cons_of_mem _ hx))
      (ha.trans h1) (hb.trans h2)

theorem fold_persist_assigned (l : List (Nat × Nat × Nat)) :
    ∀ (st : AllocSt) (i v : Nat), (∀ e ∈ l, e.2.1 ≠ 0 → e.2.2 ≠ i) →
      alookup st.assigned i = some v →
      alookup (l.foldl allocStep st).assigned i = some v := by
  induction l with
  | nil => intro st i v _ h; exact h
  | cons e l ih =>
    intro st i v hne h
    exact ih _ i v (fun x hx => hne x (List.mem_cons_of_mem _ hx))
      ((allocStep_assigned_nonload st e i (hne e (List.mem_cons_self e l))).trans h)

theorem activeKeys_step (st : AllocSt) (e : Nat × Nat × Nat) (k : Nat)
    (h : k ∈ activeKeys (allocStep st e)) :
    k ∈ activeKeys st ∨ (e.2.1 ≠ 0 ∧ e.2.2 = k) := by
  by_cases hk : e.2.2 = 0
  · rw [allocStep_skip st e hk] at h
    exact Or.inl h
  · by_cases hb : e.2.1 = 0
    · cases hs : alookup st.active e.2.2 with
      | none =>
        rw [allocStep_drop_none st e hk hb hs] at h
        exact Or.inl h
      | some slot =>
        rw [allocStep_drop_some st e slot hk hb hs] at h
        left
        simp only [activeKeys] at h ⊢
        exact ((List.filter_sublist _).map Prod.fst).mem h
    · by_cases hne : st.inactive.Nonempty
      · rw [allocStep_load_nonempty st e hk hb hne] at h
        simp only [activeKeys, List.map_cons, List.mem_cons] at h
        rcases h with h | h
        · exact Or.inr ⟨hb, h.symm⟩
        · exact Or.inl h
      · rw [allocStep_load_empty st e hk hb hne] at h
        simp only [activeKeys, List.map_cons, List.mem_cons] at h
        rcases h with h | h
        · exact Or.inr ⟨hb, h.symm⟩
        · exact Or.inl h

theorem invA_init : InvA {} := by
  refine ⟨List.nodup_nil, List.nodup_nil, by simp [activeSlots], ?_⟩
  simp [activeSlots]

theorem invA_step (st : AllocSt) (e : Nat × Nat × Nat) (hInv : InvA st)
    (hside : e.2.1 ≠ 0 → e.2.2 ≠ 0 → e.2.2 ∉ activeKeys st) :
    InvA (allocStep st e) := by
  obtain ⟨hK, hS, hD, hU⟩ := hInv
  by_cases hk : e.2.2 = 0
  · rw [allocStep_skip st e hk]
    exact ⟨hK, hS, hD, hU⟩
  by_cases hb : e.2.1 = 0
  · cases hs : alookup st.active e.2.2 with
    | none =>
      rw [allocStep_drop_none st e hk hb hs]
      exact ⟨hK, hS, hD, hU⟩
    | some slot =>
      rw [allocStep_drop_some st e slot hk hb hs]
      obtain ⟨l1, l2, heq, hne⟩ := alookup_split hs
      have hK2 : ((l1 ++ (e.2.2, slot) :: l2).map Prod.fst).Nodup := by
        rw [← heq]
        exact hK
      have hrem : aremove st.active e.2.2 = l1 ++ l2 := by
        rw [heq]
        exact aremove_split hK2 hne
      have hsplit : activeSlots st = l1.map Prod.snd ++ slot :: l2.map Prod.snd := by
        simp only [activeSlots]
        rw [heq, List.map_append, List.map_cons]
      have hS2 : (slot :: (l1.map Prod.snd ++ l2.map Prod.snd)).Nodup := by
        rw [← List.nodup_middle]
        rw [hsplit] at hS
        exact hS
      have hK3 : (e.2.2 :: ((l1 ++ l2).map Prod.fst)).Nodup := by
        rw [List.map_append, List.map_cons, List.nodup_middle] at hK2
        rw [List.map_append]
        exact hK2
      have hslotmem : slot ∈ activeSlots st := by
        rw [hsplit]
        simp
      have hslotnin : slot ∉ st.inactive := hD slot hslotmem
      refine ⟨?_, ?_, ?_, ?_⟩
      · simp only [activeKeys, hrem]
        exact hK3.of_cons
      · simp only [activeSlots, hrem, List.map_append]
        exact hS2.of_cons
      · intro s hmem hins
        simp only [activeSlots, hrem, List.map_append] at hmem
        rcases Finset.mem_insert.mp hins with hse | hsm
        · exact (List.nodup_cons.mp hS2).1 (hse ▸ hmem)
        · refine hD s ?_ hsm
          rw [hsplit]
          rcases List.mem_append.mp hmem with h | h
          · exact List.mem_append.mpr (Or.inl h)
          · exact List.mem_append.mpr (Or.inr (List.mem_cons_of_mem _ h))
      · simp only [activeSlots, hrem, List.map_append]
        have harith : l1.length + l2.length + (insert slot st.inactive).card =
            st.active.length + st.inactive.card := by
          rw [Finset.card_insert_of_not_mem hslotnin, heq]
          simp only [List.length_append, List.length_cons]
          omega
        rw [List.length_append, harith, ← hU, hsplit]
        ext x
        simp only [List.map_append, List.toFinset_append, List.toFinset_cons,
          Finset.mem_union, Finset.mem_insert, List.mem_toFinset]
        tauto
  · by_cases hne : st.inactive.Nonempty
    · rw [allocStep_load_nonempty st e hk hb hne]
      have hkey := hside hb hk
      have hcmem : st.inactive.min' hne ∈ st.inactive := Finset.min'_mem _ _
      refine ⟨?_, ?_, ?_, ?_⟩
      · simp only [activeKeys, List.map_cons]
        exact List.nodup_cons.mpr ⟨hkey, hK⟩
      · simp only [activeSlots, List.map_cons]
        refine List.nodup_cons.mpr ⟨?_, hS⟩
        intro hmem
        exact hD _ hmem hcmem
      · intro s hmem hins
        simp only [activeSlots, List.map_cons, List.mem_cons] at hmem
        rcases hmem with hse | hsm
        · exact Finset.not_mem_erase _ _ (hse ▸ hins)
        · exact hD s hsm (Finset.mem_of_mem_erase hins)
      · have hcpos : 0 < st.inactive.card := Finset.card_pos.mpr hne
        ext x
        have hUx := Finset.ext_iff.mp hU x
        simp only [activeSlots, Finset.mem_union, List.mem_toFinset,
          Finset.mem_range] at hUx
        simp only [activeSlots, List.map_cons, List.toFinset_cons,
          List.length_cons, Finset.mem_union, Finset.mem_insert,
          Finset.mem_erase, List.mem_toFinset, Finset.mem_range,
          Finset.card_erase_of_mem hcmem]
        constructor
        · rintro ((rfl | h) | ⟨hne2, h⟩)
          · have := hUx.mp (Or.inr hcmem)
            omega
          · have := hUx.mp (Or.inl h)
            omega
          · have := hUx.mp (Or.inr h)
            omega
        · intro hlt
          have hin : x ∈ List.map Prod.snd st.active ∨ x ∈ st.inactive :=
            hUx.mpr (by omega)
          rcases hin with h | h
          · exact Or.inl (Or.inr h)
          · by_cases hxc : x = st.inactive.min' hne
            · exact Or.inl (Or.inl hxc)
            · exact Or.inr ⟨hxc, h⟩
    · rw [allocStep_load_empty st e hk hb hne]
      have hkey := hside hb hk
      have hempty : st.inactive = ∅ := Finset.not_nonempty_iff_eq_empty.mp hne
      have hrange : (st.active.map Prod.snd).toFinset =
          Finset.range st.active.length := by
        rw [hempty] at hU
        simpa [activeSlots] using hU
      refine ⟨?_, ?_, ?_, ?_⟩
      · simp only [activeKeys, List.map_cons]
        exact List.nodup_cons.mpr ⟨hkey, hK⟩
      · simp only [activeSlots, List.map_cons]
        refine List.nodup_cons.mpr ⟨?_, hS⟩
        intro hmem
        have hlen : st.active.length ∈ Finset.range st.active.length := by
          rw [← hrange]
          exact List.mem_toFinset.mpr hmem
        simp at hlen
      · intro s hmem hins
        rw [hempty] at hins
        simp at hins
      · simp only [activeSlots, List.map_cons, List.toFinset_cons,
          List.length_cons, hempty]
        rw [Finset.union_empty, hrange, ← Finset.range_succ]
        congr 1

theorem load_chosen_fresh (st : AllocSt) (e : Nat × Nat × Nat)
    (hk : e.2.2 ≠ 0) (hb : e.2.1 ≠ 0) (hInv : InvA st) :
    ∃ v, alookup (allocStep st e).active e.2.2 = some v ∧
         alookup (allocStep st e).assigned e.2.2 = some v ∧
         v ∉ activeSlots st := by
  obtain ⟨-, -, hD, hU⟩ := hInv
  by_cases hne : st.inactive.Nonempty
  · rw [allocStep_load_nonempty st e hk hb hne]
    refine ⟨st.inactive.min' hne, alookup_cons_self _ _,
      alookup_cons_self _ _, ?_⟩
    intro hmem
    exact hD _ hmem (Finset.min'_mem _ hne)
  · rw [allocStep_load_empty st e hk hb hne]
    refine ⟨st.active.length, alookup_cons_self _ _,
      alookup_cons_self _ _, ?_⟩
    intro hmem
    have hempty : st.inactive = ∅ := Finset.not_nonempty_iff_eq_empty.mp hne
    have hrange : (activeSlots st).toFinset = Finset.range st.active.length := by
      rw [hempty] at hU
      simpa using hU
    have h2 : st.active.length ∈ Finset.range st.active.length := by
      rw [← hrange]
      exact List.mem_toFinset.mpr hmem
    simp at h2

theorem invA_fold (l : List (Nat × Nat × Nat)) :
    ∀ st : AllocSt, InvA st →
      (∀ k ∈ loadKeys l, k ∉ activeKeys st) →
      (loadKeys l).Nodup →
      InvA (l.foldl allocStep st) := by
  induction l with
  | nil => intro st h _ _; exact h
  | cons e l ih =>
    intro st hInv hdis hnd
    by_cases hb : e.2.1 = 0
    · have hlk : loadKeys (e :: l) = loadKeys l := by
        simp [loadKeys, List.filter_cons, hb]
      rw [List.foldl_cons]
      refine ih (allocStep st e)
        (invA_step st e hInv (fun hb2 _ => absurd hb hb2)) ?_ (hlk ▸ hnd)
      intro k hk hmem
      rcases activeKeys_step st e k hmem with hm | ⟨hb2, _⟩
      · exact hdis k (hlk ▸ hk) hm
      · exact hb2 hb
    · have hlk : loadKeys (e :: l) = e.2.2 :: loadKeys l := by
        simp [loadKeys, List.filter_cons, hb]
      rw [hlk] at hdis hnd
      rw [List.foldl_cons]
      refine ih (allocStep st e)
        (invA_step st e hInv
          (fun _ _ => hdis e.2.2 (List.mem_cons_self _ _))) ?_
        (List.nodup_cons.mp hnd).2
      intro k hk hmem
      rcases activeKeys_step st e k hmem with hm | ⟨_, hke⟩
      · exact hdis k (List.mem_cons_of_mem _ hk) hm
      · exact (List.nodup_cons.mp hnd).1 (hke ▸ hk)

theorem rlookup_none (m : RangeMap) (k : Nat) (h : rlookup m k = none) :
    k ∉ m.map Prod.fst := by
  induction m with
  | nil => simp
  | cons e es ih =>
    by_cases he : e.1 = k
    · simp only [rlookup, if_pos he] at h
      exact absurd h (by simp)
    · simp only [rlookup, if_neg he] at h
      simp only [List.map_cons, List.mem_cons]
      rintro (hk | hk)
      · exact he hk.symm
      · exact ih h hk

theorem rlookup_mem {m : RangeMap} {k : Nat} {v : Nat × Nat}
    (h : rlookup m k = some v) : (k, v) ∈ m := by
  induction m with
  | nil => simp [rlookup] at h
  | cons e es ih =>
    by_cases he : e.1 = k
    · simp only [rlookup, if_pos he] at h
      have hkv : (k, v) = e := by
        rw [← he, ← Option.some.inj h]
      exact List.mem_cons.mpr (Or.inl hkv)
    · simp only [rlookup, if_neg he] at h
      exact List.mem_cons_of_mem _ (ih h)

theorem rinsert_keys (m : RangeMap) (k f s : Nat)
    (h : (m.map Prod.fst).Nodup) :
    ((rinsert m k f s).map Prod.fst).Nodup := by
  unfold rinsert
  split
  · exact h
  · rename_i hs
    simp only [List.map_cons]
    refine List.nodup_cons.mpr ⟨?_, h⟩
    apply rlookup_none
    cases hr : rlookup m k with
    | none => rfl
    | some v =>
      rw [hr] at hs
      simp at hs

theorem rsetSecond_keys (m : RangeMap) (k s : Nat) :
    (rsetSecond m k s).map Prod.fst = m.map Prod.fst := by
  unfold rsetSecond
  rw [List.map_map]
  apply List.map_congr_left
  intro e he
  by_cases hek : e.1 = k
  · simp [hek]
  · simp [hek]

theorem rangeStep_keys (st : RangeMap × Nat) (c : Clause)
    (h : (st.1.map Prod.fst).Nodup) :
    (((rangeStep st c).1).map Prod.fst).Nodup := by
  unfold rangeStep
  dsimp only
  split
  · exact rinsert_keys _ _ _ _ h
  · rw [rsetSecond_keys, rsetSecond_keys]
    exact rinsert_keys _ _ _ _ h

theorem rangesOf_keys_nodup (t : List Clause) :
    ((rangesOf t).map Prod.fst).Nodup := by
  have main : ∀ (l : List Clause) (st : RangeMap × Nat),
      (st.1.map Prod.fst).Nodup →
      (((l.foldl rangeStep st).1).map Prod.fst).Nodup := by
    intro l
    induction l with
    | nil => intro st h; exact h
    | cons c l ih => intro st h; exact ih _ (rangeStep_keys st c h)
  exact main _ _ (by simp)

theorem rawOf_filter_load (m : RangeMap) :
    (rawOf m).filter (fun e => decide (e.2.1 ≠ 0)) =
      m.map fun e => (e.2.1, 1, e.1) := by
  induction m with
  | nil => rfl
  | cons e es ih =>
    simp only [rawOf] at ih ⊢
    simp only [ne_eq, decide_not] at ih
    simp [List.flatMap_cons, List.filter_cons, ih]

theorem rawOf_filter_drop (m : RangeMap) :
    (rawOf m).filter (fun e => decide (e.2.1 = 0)) =
      m.map fun e => (e.2.2, 0, e.1) := by
  induction m with
  | nil => rfl
  | cons e es ih =>
    simp only [rawOf] at ih ⊢
    simp [List.flatMap_cons, List.filter_cons, ih]

theorem eq_of_keys_nodup {m : List (Nat × Nat × Nat)}
    (hnd : (m.map Prod.fst).Nodup)
    {a b : Nat × Nat × Nat} (ha : a ∈ m) (hb : b ∈ m) (hk : a.1 = b.1) :
    a = b := by
  induction m with
  | nil => simp at ha
  | cons e es ih =>
    rw [List.map_cons, List.nodup_cons] at hnd
    rcases List.mem_cons.mp ha with ha2 | ha2 <;>
      rcases List.mem_cons.mp hb with hb2 | hb2
    · rw [ha2, hb2]
    · exfalso
      apply hnd.1
      rw [← ha2, hk]
      exact List.mem_map_of_mem Prod.fst hb2
    · exfalso
      apply hnd.1
      rw [← hb2, ← hk]
      exact List.mem_map_of_mem Prod.fst ha2
    · exact ih hnd.2 ha2 hb2

theorem mem_rawOf_load {m : RangeMap} {k f s : Nat} (h : (k, f, s) ∈ m) :
    (f, 1, k) ∈ rawOf m ∧ (s, 0, k) ∈ rawOf m := by
  constructor
  · exact List.mem_flatMap.mpr ⟨(k, f, s), h, by simp⟩
  · exact List.mem_flatMap.mpr ⟨(k, f, s), h, by simp⟩

theorem mem_rawOf_inv {m : RangeMap} {e : Nat × Nat × Nat}
    (h : e ∈ rawOf m) :
    ∃ r ∈ m, e = (r.2.1, 1, r.1) ∨ e = (r.2.2, 0, r.1) := by
  obtain ⟨r, hr, hmem⟩ := List.mem_flatMap.mp h
  refine ⟨r, hr, ?_⟩
  simpa using hmem

theorem key_events (m : RangeMap) (hnd : (m.map Prod.fst).Nodup)
    {k f s : Nat} (hm : (k, f, s) ∈ m) :
    ∀ e ∈ rawOf m, e.2.2 = k → e = (f, 1, k) ∨ e = (s, 0, k) := by
  intro e he hek
  obtain ⟨r, hr, hre⟩ := mem_rawOf_inv he
  have hrk : r.1 = k := by
    rcases hre with h2 | h2 <;> (rw [h2] at hek; exact hek)
  have hrfs : r = (k, f, s) := eq_of_keys_nodup hnd hr hm hrk
  rcases hre with h2 | h2
  · left
    rw [h2, hrfs]
  · right
    rw [h2, hrfs]

theorem nodup_load_shape (m : RangeMap) (hnd : (m.map Prod.fst).Nodup) :
    (m.map fun e => ((e.2.1, 1, e.1) : Nat × Nat × Nat)).Nodup := by
  apply List.Nodup.of_map (fun x : Nat × Nat × Nat => x.2.2)
  rw [List.map_map]
  exact hnd

theorem nodup_drop_shape (m : RangeMap) (hnd : (m.map Prod.fst).Nodup) :
    (m.map fun e => ((e.2.2, 0, e.1) : Nat × Nat × Nat)).Nodup := by
  apply List.Nodup.of_map (fun x : Nat × Nat × Nat => x.2.2)
  rw [List.map_map]
  exact hnd

theorem eventsOf_filter_load_nodup (m : RangeMap)
    (hnd : (m.map Prod.fst).Nodup) :
    ((eventsOf m).filter (fun e => decide (e.2.1 ≠ 0))).Nodup := by
  have hperm := (List.mergeSort_perm (rawOf m) evLe).filter
    (fun e => decide (e.2.1 ≠ 0))
  refine hperm.nodup_iff.mpr ?_
  rw [rawOf_filter_load]
  exact nodup_load_shape m hnd

theorem eventsOf_filter_drop_nodup (m : RangeMap)
    (hnd : (m.map Prod.fst).Nodup) :
    ((eventsOf m).filter (fun e => decide (e.2.1 = 0))).Nodup := by
  have hperm := (List.mergeSort_perm (rawOf m) evLe).filter
    (fun e => decide (e.2.1 = 0))
  refine hperm.nodup_iff.mpr ?_
  rw [rawOf_filter_drop]
  exact nodup_drop_shape m hnd

theorem loadKeys_eventsOf_nodup (m : RangeMap)
    (hnd : (m.map Prod.fst).Nodup) :
    (loadKeys (eventsOf m)).Nodup := by
  have hperm := ((List.mergeSort_perm (rawOf m) evLe).filter
    (fun e => decide (e.2.1 ≠ 0))).map (fun e : Nat × Nat × Nat => e.2.2)
  refine hperm.nodup_iff.mpr ?_
  rw [rawOf_filter_load, List.map_map]
  exact hnd

theorem eventsOf_sorted (m : RangeMap) :
    (eventsOf m).Pairwise (fun a b => evLe a b = true) := by
  apply List.sorted_mergeSort
  · intro a b c hab hbc
    simp only [evLe, decide_eq_true_eq] at hab hbc ⊢
    omega
  · intro a b
    simp only [evLe, Bool.or_eq_true, decide_eq_true_eq]
    omega

theorem sorted_lt_index {evs : List (Nat × Nat × Nat)}
    (hs : evs.Pairwise (fun a b => evLe a b = true))
    {x y : Nat × Nat × Nat} (hx : x ∈ evs) (hy : y ∈ evs)
    (hxy : evLe y x = false) :
    ∃ (px py : Nat) (hpx : px < evs.length) (hpy : py < evs.length),
      px < py ∧ evs.get ⟨px, hpx⟩ = x ∧ evs.get ⟨py, hpy⟩ = y := by
  obtain ⟨px, hpx, hgx⟩ := List.getElem_of_mem hx
  obtain ⟨py, hpy, hgy⟩ := List.getElem_of_mem hy
  have hp2 := List.pairwise_iff_getElem.mp hs
  rcases Nat.lt_trichotomy px py with h | h | h
  · exact ⟨px, py, hpx, hpy, h, hgx, hgy⟩
  · exfalso
    subst h
    rw [hgx] at hgy
    have hr : evLe y x = true := by
      rw [← hgy]
      simp [evLe]
    rw [hr] at hxy
    exact absurd hxy (by simp)
  · exfalso
    have h2 := hp2 py px hpy hpx h
    rw [hgx, hgy] at h2
    rw [h2] at hxy
    exact absurd hxy (by simp)

theorem list_three_split (l : List (Nat × Nat × Nat)) (p q : Nat)
    (hpq : p < q) (hq : q < l.length) :
    l = l.take p ++ l.get ⟨p, by omega⟩ ::
        ((l.drop (p+1)).take (q - p - 1) ++ l.get ⟨q, hq⟩ :: l.drop (q+1)) := by
  have hp : p < l.length := by omega
  conv_lhs => rw [← List.take_append_drop p l]
  congr 1
  rw [List.drop_eq_getElem_cons hp]
  congr 1
  conv_lhs => rw [← List.take_append_drop (q - p - 1) (l.drop (p+1))]
  congr 1
  rw [List.drop_drop]
  have harith : p + 1 + (q - p - 1) = q := by omega
  rw [harith, List.drop_eq_getElem_cons hq]
  rfl

theorem mem_loadKeys {l : List (Nat × Nat × Nat)} {e : Nat × Nat × Nat}
    (he : e ∈ l) (hb : e.2.1 ≠ 0) : e.2.2 ∈ loadKeys l := by
  simp only [loadKeys, List.mem_map]
  exact ⟨e, List.mem_filter.mpr ⟨he, by simpa using hb⟩, rfl⟩

theorem get_mem_drop (l : List (Nat × Nat × Nat)) (r m : Nat)
    (hr : r < l.length) (hm : m ≤ r) : l.get ⟨r, hr⟩ ∈ l.drop m := by
  have hlen : r - m < (l.drop m).length := by
    rw [List.length_drop]
    omega
  have h1 : (l.drop m).get ⟨r - m, hlen⟩ = l.get ⟨r, hr⟩ := by
    simp only [List.get_eq_getElem, List.getElem_drop]
    congr 1
    omega
  rw [← h1]
  exact List.get_mem _ _ _

theorem loadKeys_append (l1 l2 : List (Nat × Nat × Nat)) :
    loadKeys (l1 ++ l2) = loadKeys l1 ++ loadKeys l2 := by
  simp [loadKeys, List.filter_append]

theorem loadKeys_cons_load (e : Nat × Nat × Nat)
    (l : List (Nat × Nat × Nat)) (hb : e.2.1 ≠ 0) :
    loadKeys (e :: l) = e.2.2 :: loadKeys l := by
  simp [loadKeys, List.filter_cons, hb]

/-- Core trace argument: if LOAD i happens at position p, LOAD j at a later
position q, and DROP i only after q, then the slots recorded for i and j in
`assigned` differ. -/
theorem alloc_core (evs : List (Nat × Nat × Nat)) (i j fi fj si : Nat)
    (hi : i ≠ 0) (hj : j ≠ 0) (hij : i ≠ j)
    (hLk : (loadKeys evs).Nodup)
    (hDnd : (evs.filter (fun e => decide (e.2.1 = 0))).Nodup)
    (hkeyi : ∀ e ∈ evs, e.2.2 = i → e = (fi, 1, i) ∨ e = (si, 0, i))
    (p q : Nat) (hpq : p < q) (hq : q < evs.length)
    (hp : evs.get ⟨p, by omega⟩ = (fi, 1, i))
    (hqe : evs.get ⟨q, hq⟩ = (fj, 1, j))
    (hDi : ∃ (r : Nat) (hr : r < evs.length),
      q < r ∧ evs.get ⟨r, hr⟩ = (si, 0, i)) :
    ∃ vi vj, alookup (evs.foldl allocStep {}).assigned i = some vi ∧
             alookup (evs.foldl allocStep {}).assigned j = some vj ∧
             vi ≠ vj := by
  obtain ⟨r, hr, hqr, hgr⟩ := hDi
  have hsplit : evs = evs.take p ++ (fi, 1, i) ::
      ((evs.drop (p+1)).take (q - p - 1) ++ (fj, 1, j) :: evs.drop (q+1)) := by
    have h := list_three_split evs p q hpq hq
    rw [hp, hqe] at h
    exact h
  set A := evs.take p with hA
  set B := (evs.drop (p+1)).take (q - p - 1) with hB
  set C := evs.drop (q+1) with hC
  have hBsub : ∀ e ∈ B, e ∈ evs := fun e he =>
    ((List.take_sublist _ _).trans (List.drop_sublist _ _)).subset he
  have hkeys : (loadKeys A ++ i :: (loadKeys B ++ j :: loadKeys C)).Nodup := by
    have h2 := hLk
    rw [hsplit] at h2
    rw [loadKeys_append, loadKeys_cons_load _ _ (by simp), loadKeys_append,
        loadKeys_cons_load _ _ (by simp)] at h2
    exact h2
  have hiNot : i ∉ loadKeys A ++ (loadKeys B ++ j :: loadKeys C) :=
    (List.nodup_cons.mp (List.nodup_middle.mp hkeys)).1
  have hrest : (loadKeys B ++ j :: loadKeys C).Nodup :=
    (hkeys.of_append_right).of_cons
  have hjNot : j ∉ loadKeys B ++ loadKeys C :=
    (List.nodup_cons.mp (List.nodup_middle.mp hrest)).1
  have hiB : i ∉ loadKeys B := fun h =>
    hiNot (List.mem_append.mpr (Or.inr (List.mem_append.mpr (Or.inl h))))
  have hiC : i ∉ loadKeys C := fun h =>
    hiNot (List.mem_append.mpr (Or.inr (List.mem_append.mpr
      (Or.inr (List.mem_cons_of_mem _ h)))))
  have hjB : j ∉ loadKeys B := fun h =>
    hjNot (List.mem_append.mpr (Or.inl h))
  have hjC : j ∉ loadKeys C := fun h =>
    hjNot (List.mem_append.mpr (Or.inr h))
  have hDmem : (si, 0, i) ∈ C := by
    rw [hC]
    have h2 := get_mem_drop evs r (q+1) hr (by omega)
    rw [hgr] at h2
    exact h2
  have hDnotB : (si, 0, i) ∉ B := by
    intro hmem
    have h2 := hDnd
    rw [hsplit] at h2
    simp only [List.filter_append, List.filter_cons] at h2
    simp at h2
    have h3 := h2.of_append_right
    have h4 := List.disjoint_of_nodup_append h3
    exact h4 (List.mem_filter.mpr ⟨hmem, by simp⟩)
      (List.mem_filter.mpr ⟨hDmem, by simp⟩)
  have hBi : ∀ e ∈ B, e.2.2 ≠ i := by
    intro e he hei
    by_cases hbit : e.2.1 = 0
    · rcases hkeyi e (hBsub e he) hei with h2 | h2
      · rw [h2] at hbit
        simp at hbit
      · rw [h2] at he
        exact hDnotB he
    · exact hiB (hei ▸ mem_loadKeys he hbit)
  have hCi : ∀ e ∈ C, e.2.1 ≠ 0 → e.2.2 ≠ i := by
    intro e he hb hei
    exact hiC (hei ▸ mem_loadKeys he hb)
  have hCj : ∀ e ∈ C, e.2.1 ≠ 0 → e.2.2 ≠ j := by
    intro e he hb hej
    exact hjC (hej ▸ mem_loadKeys he hb)
  have hfold : evs.foldl allocStep {} =
      C.foldl allocStep (allocStep (B.foldl allocStep
        (allocStep (A.foldl allocStep {}) (fi, 1, i))) (fj, 1, j)) := by
    conv_lhs => rw [hsplit]
    rw [List.foldl_append, List.foldl_cons, List.foldl_append, List.foldl_cons]
  have hInv0 : InvA (A.foldl allocStep {}) := by
    apply invA_fold A {} invA_init
    · intro k _ hk
      simp [activeKeys] at hk
    · exact hkeys.sublist (List.sublist_append_left _ _)
  obtain ⟨vi, hvi1, hvi2, hvifresh⟩ := load_chosen_fresh (A.foldl allocStep {})
    (fi, 1, i) hi (by simp) hInv0
  obtain ⟨hvi3, hvi4⟩ := fold_persist B _ i vi hBi hvi1 hvi2
  have hInv2 : InvA (B.foldl allocStep
      (allocStep (A.foldl allocStep {}) (fi, 1, i))) := by
    have heq2 : (A ++ (fi, 1, i) :: B).foldl allocStep {} =
        B.foldl allocStep (allocStep (A.foldl allocStep {}) (fi, 1, i)) := by
      rw [List.foldl_append, List.foldl_cons]
    rw [← heq2]
    apply invA_fold _ {} invA_init
    · intro k _ hk
      simp [activeKeys] at hk
    · rw [loadKeys_append, loadKeys_cons_load _ _ (by simp)]
      refine hkeys.sublist ?_
      refine List.Sublist.append_left ?_ _
      refine List.Sublist.cons₂ _ ?_
      exact List.sublist_append_left _ _
  obtain ⟨vj, hvj1, hvj2, hvjfresh⟩ := load_chosen_fresh _ (fj, 1, j) hj
    (by simp) hInv2
  have hvimem : vi ∈ activeSlots (B.foldl allocStep
      (allocStep (A.foldl allocStep {}) (fi, 1, i))) := alookup_mem_snd hvi3
  have hne : vi ≠ vj := by
    intro h
    rw [h] at hvimem
    exact hvjfresh hvimem
  have hvi5 : alookup (allocStep (B.foldl allocStep
      (allocStep (A.foldl allocStep {}) (fi, 1, i)))
      (fj, 1, j)).assigned i = some vi := by
    rw [(allocStep_other_key _ (fj, 1, j) i (Ne.symm hij)).2]
    exact hvi4
  have hfin_i := fold_persist_assigned C _ i vi hCi hvi5
  have hfin_j := fold_persist_assigned C _ j vj hCj hvj2
  refine ⟨vi, vj, ?_, ?_, hne⟩
  · rw [hfold]
    exact hfin_i
  · rw [hfold]
    exact hfin_j

theorem slotOf_ne_of_overlap (t : List Clause) (i j fi si fj sj : Nat)
    (hi : i ≠ 0) (hj : j ≠ 0) (hij : i ≠ j)
    (hri : rlookup (rangesOf t) i = some (fi, si))
    (hrj : rlookup (rangesOf t) j = some (fj, sj))
    (h1 : fi < sj) (h2 : fj < si) :
    slotOf t i ≠ slotOf t j := by
  have hnd := rangesOf_keys_nodup t
  have hmemi : (i, fi, si) ∈ rangesOf t := rlookup_mem hri
  have hmemj : (j, fj, sj) ∈ rangesOf t := rlookup_mem hrj
  have hLi : (fi, 1, i) ∈ eventsOf (rangesOf t) :=
    (List.mergeSort_perm _ _).mem_iff.mpr (mem_rawOf_load hmemi).1
  have hDi : (si, 0, i) ∈ eventsOf (rangesOf t) :=
    (List.mergeSort_perm _ _).mem_iff.mpr (mem_rawOf_load hmemi).2
  have hLj : (fj, 1, j) ∈ eventsOf (rangesOf t) :=
    (List.mergeSort_perm _ _).mem_iff.mpr (mem_rawOf_load hmemj).1
  have hDj : (sj, 0, j) ∈ eventsOf (rangesOf t) :=
    (List.mergeSort_perm _ _).mem_iff.mpr (mem_rawOf_load hmemj).2
  have hsorted := eventsOf_sorted (rangesOf t)
  have hkeyi : ∀ e ∈ eventsOf (rangesOf t), e.2.2 = i →
      e = (fi, 1, i) ∨ e = (si, 0, i) := by
    intro e he hei
    exact key_events _ hnd hmemi e ((List.mergeSort_perm _ _).mem_iff.mp he) hei
  have hkeyj : ∀ e ∈ eventsOf (rangesOf t), e.2.2 = j →
      e = (fj, 1, j) ∨ e = (sj, 0, j) := by
    intro e he hej
    exact key_events _ hnd hmemj e ((List.mergeSort_perm _ _).mem_iff.mp he) hej
  have hLk := loadKeys_eventsOf_nodup _ hnd
  have hDnd := eventsOf_filter_drop_nodup _ hnd
  obtain ⟨pi, hpi, hgi⟩ := List.getElem_of_mem hLi
  obtain ⟨pj, hpj, hgj⟩ := List.getElem_of_mem hLj
  obtain ⟨ri, hri3, hgri⟩ := List.getElem_of_mem hDi
  obtain ⟨rj, hrj3, hgrj⟩ := List.getElem_of_mem hDj
  have hpw := List.pairwise_iff_getElem.mp hsorted
  have hooj : pj < ri := by
    by_contra hle
    push_neg at hle
    rcases Nat.eq_or_lt_of_le hle with heq | hlt
    · subst heq
      rw [hgri] at hgj
      simp at hgj
    · have hle2 := hpw ri pj hri3 hpj hlt
      rw [hgri, hgj] at hle2
      simp only [evLe, decide_eq_true_eq] at hle2
      omega
  have hooi : pi < rj := by
    by_contra hle
    push_neg at hle
    rcases Nat.eq_or_lt_of_le hle with heq | hlt
    · subst heq
      rw [hgrj] at hgi
      simp at hgi
    · have hle2 := hpw rj pi hrj3 hpi hlt
      rw [hgrj, hgi] at hle2
      simp only [evLe, decide_eq_true_eq] at hle2
      omega
  rcases Nat.lt_trichotomy pi pj with hlt | heq | hgt
  · obtain ⟨vi, vj, hvi, hvj, hne⟩ := alloc_core (eventsOf (rangesOf t))
      i j fi fj si hi hj hij hLk hDnd hkeyi pi pj hlt hpj hgi hgj
      ⟨ri, hri3, hooj, hgri⟩
    intro hcon
    rw [show slotOf t i = vi by
          simp only [slotOf, allocRun, hvi, Option.getD_some],
        show slotOf t j = vj by
          simp only [slotOf, allocRun, hvj, Option.getD_some]] at hcon
    exact hne hcon
  · exfalso
    subst heq
    rw [hgi] at hgj
    simp at hgj
    exact hij hgj.2
  · obtain ⟨vj, vi, hvj, hvi, hne⟩ := alloc_core (eventsOf (rangesOf t))
      j i fj fi sj hj hi (Ne.symm hij) hLk hDnd hkeyj pj pi hgt hpi hgj hgi
      ⟨rj, hrj3, hooi, hgrj⟩
    intro hcon
    rw [show slotOf t i = vi by
          simp only [slotOf, allocRun, hvi, Option.getD_some],
        show slotOf t j = vj by
          simp only [slotOf, allocRun, hvj, Option.getD_some]] at hcon
    exact hne hcon.symm

theorem assignSlots_getD (t : List Clause) (n k : Nat) (h : k < n) :
    (assignSlots t n).getD k 0 = slotOf t k := by
  have hlen : k < (assignSlots t n).length := by
    simp [assignSlots, h]
  rw [List.getD_eq_getElem _ _ hlen]
  simp [assignSlots]

/-- C5: no two clauses with intersecting live ranges [first_use, last_use+1]
receive the same memory slot from assignSlots, neither in the stored slot
vector nor in the per-id lookup; mechanically, a DROP event returns the
clause's slot to the free set, a LOAD event binds the clause to the smallest
free slot, and the register file grows (chosen = active.size()) exactly when
the free set is empty. -/
theorem assign_slots_no_overlap_share (t : List Clause) (n i j : Nat)
    (hi : i ≠ 0) (hj : j ≠ 0) (hij : i ≠ j) (hin : i < n) (hjn : j < n)
    (hri : (rlookup (rangesOf t) i).isSome = true)
    (hrj : (rlookup (rangesOf t) j).isSome = true)
    (hov : rangesOverlap (rangeOf t i) (rangeOf t j)) :
    ((assignSlots t n).getD i 0 ≠ (assignSlots t n).getD j 0 ∧
     slotOf t i ≠ slotOf t j) ∧
    (∀ (st : AllocSt) (e : Nat × Nat × Nat) (slot : Nat),
      e.2.2 ≠ 0 → e.2.1 = 0 → alookup st.active e.2.2 = some slot →
      (allocStep st e).inactive = insert slot st.inactive ∧
      (allocStep st e).active = aremove st.active e.2.2 ∧
      (allocStep st e).assigned = st.assigned) ∧
    (∀ (st : AllocSt) (e : Nat × Nat × Nat), e.2.2 ≠ 0 → e.2.1 ≠ 0 →
      ∀ h : st.inactive.Nonempty,
      (allocStep st e).active = (e.2.2, st.inactive.min' h) :: st.active ∧
      (allocStep st e).assigned = (e.2.2, st.inactive.min' h) :: st.assigned ∧
      (allocStep st e).inactive = st.inactive.erase (st.inactive.min' h) ∧
      ∀ x ∈ st.inactive, st.inactive.min' h ≤ x) ∧
    (∀ (st : AllocSt) (e : Nat × Nat × Nat), e.2.2 ≠ 0 → e.2.1 ≠ 0 →
      st.inactive = ∅ →
      (allocStep st e).active = (e.2.2, st.active.length) :: st.active ∧
      (allocStep st e).assigned = (e.2.2, st.active.length) :: st.assigned ∧
      (allocStep st e).inactive = ∅) := by
  obtain ⟨ri2, hri2⟩ := Option.isSome_iff_exists.mp hri
  obtain ⟨rj2, hrj2⟩ := Option.isSome_iff_exists.mp hrj
  obtain ⟨fi, si⟩ := ri2
  obtain ⟨fj, sj⟩ := rj2
  have hovij : fi < sj ∧ fj < si := by
    have hr1 : rangeOf t i = (fi, si) := by simp [rangeOf, hri2]
    have hr2 : rangeOf t j = (fj, sj) := by simp [rangeOf, hrj2]
    rw [hr1, hr2] at hov
    exact hov
  have hmain := slotOf_ne_of_overlap t i j fi si fj sj hi hj hij hri2 hrj2
    hovij.1 hovij.2
  refine ⟨⟨?_, hmain⟩, ?_, ?_, ?_⟩
  · rw [assignSlots_getD t n i hin, assignSlots_getD t n j hjn]
    exact hmain
  · intro st e slot hk hb hs
    rw [allocStep_drop_some st e slot hk hb hs]
    exact ⟨rfl, rfl, rfl⟩
  · intro st e hk hb h
    rw [allocStep_load_nonempty st e hk hb h]
    exact ⟨rfl, rfl, rfl, fun x hx => Finset.min'_le _ _ hx⟩
  · intro st e hk hb hemp
    rw [allocStep_load_empty st e hk hb (by simp [hemp])]
    exact ⟨rfl, rfl, hemp⟩

/-- Witness for C5: in the base tape for f = X + Y, clauses 1 (VAR_X) and 2
(VAR_Y) have overlapping live ranges and indeed receive different slots. -/
theorem assign_slots_no_overlap_share_witness :
    slotOf ((buildTape demoFlat).tapes.getD 0 default).t 1 ≠
    slotOf ((buildTape demoFlat).tapes.getD 0 default).t 2 :=
  (assign_slots_no_overlap_share ((buildTape demoFlat).tapes.getD 0 default).t
    4 1 2 (by decide) (by decide) (by decide) (by decide) (by decide)
    (by decide) (by decide) ⟨by decide, by decide⟩).1.2

/-- A well-formed subtape satisfies the corrected operand-order property:
operands appear later, not earlier, in the forward walk. -/
theorem operandsLater_of_WfT (t : List Clause) (h : WfT t) :
    operandsLater t := by
  obtain ⟨hpw, hcl⟩ := h
  have hpw2 := List.pairwise_iff_getElem.mp hpw
  intro i hi hnd
  have hci : t.getD i default ∈ t := by
    rw [List.getD_eq_getElem t default hi]
    exact List.getElem_mem hi
  obtain ⟨_, hops⟩ := hcl _ hci
  obtain ⟨ha, hb⟩ := hops hnd
  have key : ∀ o, (o = 0 ∨ (o < (t.getD i default).id ∧ o ∈ t.map Clause.id)) →
      (o = 0 ∨ ∃ j, i < j ∧ j < t.length ∧ (t.getD j default).id = o) := by
    intro o ho
    rcases ho with h | ⟨hlt, hmem⟩
    · exact Or.inl h
    · right
      obtain ⟨d, hd, hdid⟩ := List.mem_map.mp hmem
      obtain ⟨j, hj, hje⟩ := List.getElem_of_mem hd
      refine ⟨j, ?_, hj, ?_⟩
      · by_contra hle
        push_neg at hle
        rcases Nat.lt_or_ge j i with hjl | hge
        · have hR := hpw2 j i (by simpa using Nat.lt_trans hjl hi)
            (by simpa using hi) hjl
          rw [List.getElem_map, List.getElem_map, hje] at hR
          rw [List.getD_eq_getElem t default hi] at hlt
          omega
        · have hji : j = i := by omega
          subst hji
          rw [List.getD_eq_getElem t default hj, hje, hdid] at hlt
          omega
      · rw [List.getD_eq_getElem t default hj, hje, hdid]
  exact ⟨key _ ha, key _ hb⟩

/-- The demo flat list (X, Y, X+Y) is topologically ordered. -/
theorem topoFlat_demoFlat : TopoFlat demoFlat := by
  intro p hp
  have hp3 : p < 3 := by simpa [demoFlat] using hp
  rcases p with _ | _ | _ | n
  · exact ⟨True.intro, True.intro⟩
  · exact ⟨True.intro, True.intro⟩
  · exact ⟨show (0 : Nat) < 2 by omega, show (1 : Nat) < 2 by omega⟩
  · exact absurd hp3 (by omega)

/-- C2 counterexample: in the base tape for f = X + Y the first clause is the
ADD at the front of the forward walk and its operands appear only later, so
the claimed "operands appear earlier in the forward walk" fails. -/
theorem operands_earlier_cx :
    ¬ operandsEarlier ((buildTape demoFlat).tapes.getD 0 default).t := by
  intro h
  have h0 := h 0 (by decide) (by decide)
  rcases h0.1 with h1 | ⟨j, hj, _⟩
  · exact absurd h1 (by decide)
  · omega

/-- C2 amended: in the base tape produced by the constructor and in every
Subtape produced by any sequence of (contract-satisfying) pushes and pops,
each nonzero operand id of every clause whose op has real children appears
as the id of a clause strictly LATER in the forward walk of the subtape's
clause sequence (equivalently, earlier in the reverse evaluation walk), and
every subtape is well-formed (ids strictly decreasing, operands strictly
smaller). -/
theorem tape_operands_later (flat : List FlatNode) (ops : List TapeOp)
    (hflat : TopoFlat flat) (hops : OpsContract ops) :
    ∀ sub ∈ (runOps (buildTape flat) ops).tapes,
      WfT sub.t ∧ operandsLater sub.t := by
  intro sub hsub
  have hwf := tapeWf_runOps ops (buildTape flat) (tapeWf_buildTape flat hflat)
    hops sub hsub
  exact ⟨hwf.1, operandsLater_of_WfT _ hwf.1⟩

/-- Witness for C2 amended: the pushed subtape of the demo tape. -/
theorem tape_operands_later_witness :
    operandsLater ((runOps (buildTape demoFlat)
      [TapeOp.push keepBothFn .INTERVAL demoRegion]).tapes.getD 1 default).t :=
  (tape_operands_later demoFlat [TapeOp.push keepBothFn .INTERVAL demoRegion]
    topoFlat_demoFlat
    (by
      intro o ho
      rw [List.mem_singleton] at ho
      subst ho
      intro op i a b _
      exact Or.inl rfl)
    _ (by decide)).2

/-! ### C10: remap chain termination -/

theorem getD_set_cases (l : List Nat) (n v x : Nat) :
    (l.set n v).getD x 0 = l.getD x 0 ∨
    (x = n ∧ (l.set n v).getD x 0 = v) := by
  by_cases hx : x = n
  · subst hx
    by_cases hn : x < l.length
    · exact Or.inr ⟨rfl, getD_set_self _ _ _ _ hn⟩
    · left
      rw [List.set_eq_of_length_le (by omega)]
  · left
    rw [getD_set_ne _ _ _ _ _ hx]

theorem pushStep_remap_cases (fn : Opcode → Nat → Nat → Nat → Keep)
    (s : PushScan) (c : Clause) :
    (pushStep fn s c).remap = s.remap ∨
    (pushStep fn s c).remap = s.remap.set c.id c.a ∨
    (pushStep fn s c).remap = s.remap.set c.id c.b := by
  simp only [pushStep]
  split
  · exact Or.inl rfl
  · rcases hk : fn c.op c.id c.a c.b <;> simp only [hk] <;> split <;>
      first
        | (exact Or.inr (Or.inl rfl))
        | (exact Or.inr (Or.inr rfl))
        | (exact Or.inl rfl)
        | (split
           · exact Or.inl rfl
           · exact Or.inl rfl)
        | (split
           · exact Or.inr (Or.inl rfl)
           · exact Or.inr (Or.inl rfl))
        | (split
           · exact Or.inr (Or.inr rfl)
           · exact Or.inr (Or.inr rfl))

theorem pushStep_remap_vals (fn : Opcode → Nat → Nat → Nat → Keep)
    (s : PushScan) (c : Clause) :
    ∀ x, rm (pushStep fn s c) x = rm s x ∨
      (x = c.id ∧ (rm (pushStep fn s c) x = c.a ∨
                   rm (pushStep fn s c) x = c.b)) := by
  intro x
  rcases pushStep_remap_cases fn s c with h | h | h
  · left
    rw [show rm (pushStep fn s c) x = (pushStep fn s c).remap.getD x 0 from rfl,
        h]
    rfl
  · rw [show rm (pushStep fn s c) x = (pushStep fn s c).remap.getD x 0 from rfl,
        h]
    rcases getD_set_cases s.remap c.id c.a x with h2 | ⟨hx, h2⟩
    · exact Or.inl h2
    · exact Or.inr ⟨hx, Or.inl h2⟩
  · rw [show rm (pushStep fn s c) x = (pushStep fn s c).remap.getD x 0 from rfl,
        h]
    rcases getD_set_cases s.remap c.id c.b x with h2 | ⟨hx, h2⟩
    · exact Or.inl h2
    · exact Or.inr ⟨hx, Or.inr h2⟩

/-- Every remap entry written by the classifier walk carries one of the
operands of the clause with that id. -/
theorem scanList_remap_src (fn : Opcode → Nat → Nat → Nat → Keep)
    (T : List Clause) :
    ∀ (rest : List Clause) (s : PushScan),
      (∀ c ∈ rest, c ∈ T) →
      (∀ x, rm s x = 0 ∨
        ∃ c ∈ T, c.id = x ∧ (rm s x = c.a ∨ rm s x = c.b)) →
      (∀ x, rm (scanList fn s rest) x = 0 ∨
        ∃ c ∈ T, c.id = x ∧ (rm (scanList fn s rest) x = c.a ∨
                             rm (scanList fn s rest) x = c.b)) := by
  intro rest
  induction rest with
  | nil => intro s _ hP; exact hP
  | cons c rest ih =>
    intro s hsub hP
    apply ih (pushStep fn s c)
      (fun d hd => hsub d (List.mem_cons_of_mem _ hd))
    intro x
    rcases pushStep_remap_vals fn s c x with h | ⟨hx, h⟩
    · rcases hP x with h0 | ⟨d, hd, hdid, hv⟩
      · left
        rw [h]
        exact h0
      · right
        refine ⟨d, hd, hdid, ?_⟩
        rw [h]
        exact hv
    · right
      exact ⟨c, hsub c (List.mem_cons_self _ _), hx.symm, h⟩

/-- C10: starting from a freshly constructed tape on topological input and
after any legal, contract-satisfying push/pop history, the remap table built
by a further push maps each clause id to 0 or to one of that clause's
operands; the constructor makes all operand ids strictly smaller than their
clause id, so every remap entry is 0 or strictly smaller than its index and
every operand-rewriting chain reaches, within at most x steps from start x,
a fixed point (an id with remap 0); in particular its value is independent
of any larger fuel, i.e. the rewriting loop terminates for every clause. -/
theorem remap_chain_terminates (flat : List FlatNode) (ops : List TapeOp)
    (fn : Opcode → Nat → Nat → Nat → Keep)
    (hflat : TopoFlat flat) (hops : OpsContract ops) (hfn : FnContract fn) :
    (∀ sub ∈ (runOps (buildTape flat) ops).tapes, ∀ c ∈ sub.t,
      hasDummyChildren c.op = false →
        (c.a = 0 ∨ c.a < c.id) ∧ (c.b = 0 ∨ c.b < c.id)) ∧
    (∀ x, rm (scanList fn
        (initScan (runOps (buildTape flat) ops).numClauses
          ((runOps (buildTape flat) ops).tapes.getD
            (runOps (buildTape flat) ops).cursor default).t)
        ((runOps (buildTape flat) ops).tapes.getD
          (runOps (buildTape flat) ops).cursor default).t) x = 0 ∨
      rm (scanList fn
        (initScan (runOps (buildTape flat) ops).numClauses
          ((runOps (buildTape flat) ops).tapes.getD
            (runOps (buildTape flat) ops).cursor default).t)
        ((runOps (buildTape flat) ops).tapes.getD
          (runOps (buildTape flat) ops).cursor default).t) x < x) ∧
    (∀ x, rm (scanList fn
        (initScan (runOps (buildTape flat) ops).numClauses
          ((runOps (buildTape flat) ops).tapes.getD
            (runOps (buildTape flat) ops).cursor default).t)
        ((runOps (buildTape flat) ops).tapes.getD
          (runOps (buildTape flat) ops).cursor default).t) x ≠ 0 →
      ∃ c ∈ ((runOps (buildTape flat) ops).tapes.getD
          (runOps (buildTape flat) ops).cursor default).t,
        c.id = x ∧
        (rm (scanList fn
          (initScan (runOps (buildTape flat) ops).numClauses
            ((runOps (buildTape flat) ops).tapes.getD
              (runOps (buildTape flat) ops).cursor default).t)
          ((runOps (buildTape flat) ops).tapes.getD
            (runOps (buildTape flat) ops).cursor default).t) x = c.a ∨
         rm (scanList fn
          (initScan (runOps (buildTape flat) ops).numClauses
            ((runOps (buildTape flat) ops).tapes.getD
              (runOps (buildTape flat) ops).cursor default).t)
          ((runOps (buildTape flat) ops).tapes.getD
            (runOps (buildTape flat) ops).cursor default).t) x = c.b)) ∧
    (∀ x fuel, x ≤ fuel →
      remapChain (scanList fn
        (initScan (runOps (buildTape flat) ops).numClauses
          ((runOps (buildTape flat) ops).tapes.getD
            (runOps (buildTape flat) ops).cursor default).t)
        ((runOps (buildTape flat) ops).tapes.getD
          (runOps (buildTape flat) ops).cursor default).t).remap fuel x =
      remapChain (scanList fn
        (initScan (runOps (buildTape flat) ops).numClauses
          ((runOps (buildTape flat) ops).tapes.getD
            (runOps (buildTape flat) ops).cursor default).t)
        ((runOps (buildTape flat) ops).tapes.getD
          (runOps (buildTape flat) ops).cursor default).t).remap x x) ∧
    (∀ x, (scanList fn
        (initScan (runOps (buildTape flat) ops).numClauses
          ((runOps (buildTape flat) ops).tapes.getD
            (runOps (buildTape flat) ops).cursor default).t)
        ((runOps (buildTape flat) ops).tapes.getD
          (runOps (buildTape flat) ops).cursor default).t).remap.getD
        (remapChain (scanList fn
          (initScan (runOps (buildTape flat) ops).numClauses
            ((runOps (buildTape flat) ops).tapes.getD
              (runOps (buildTape flat) ops).cursor default).t)
          ((runOps (buildTape flat) ops).tapes.getD
            (runOps (buildTape flat) ops).cursor default).t).remap x x) 0 = 0) := by
  have hwf := tapeWf_runOps ops (buildTape flat) (tapeWf_buildTape flat hflat)
    hops
  have hcur : WfT ((runOps (buildTape flat) ops).tapes.getD
        (runOps (buildTape flat) ops).cursor default).t ∧
      ∀ c ∈ ((runOps (buildTape flat) ops).tapes.getD
        (runOps (buildTape flat) ops).cursor default).t,
        c.id < (runOps (buildTape flat) ops).numClauses := by
    rcases getD_mem_or (runOps (buildTape flat) ops).tapes
      (runOps (buildTape flat) ops).cursor with hm | hd
    · exact hwf _ hm
    · rw [hd]
      exact default_subtape_wf _
  obtain ⟨⟨hpw, hcl⟩, hL⟩ := hcur
  have hok : ∀ c ∈ ((runOps (buildTape flat) ops).tapes.getD
      (runOps (buildTape flat) ops).cursor default).t,
      ClauseOkU (((runOps (buildTape flat) ops).tapes.getD
        (runOps (buildTape flat) ops).cursor default).t.map Clause.id)
        (runOps (buildTape flat) ops).numClauses c := by
    intro c hc
    obtain ⟨h1, h2⟩ := hcl c hc
    exact ⟨h1, List.mem_map_of_mem _ hc, hL c hc, h2⟩
  obtain ⟨⟨_, _, hI1, _, _, _, _⟩, _, _, _⟩ :=
    scan_main fn hfn (runOps (buildTape flat) ops).numClauses
      (((runOps (buildTape flat) ops).tapes.getD
        (runOps (buildTape flat) ops).cursor default).t.map Clause.id)
      (((runOps (buildTape flat) ops).tapes.getD
        (runOps (buildTape flat) ops).cursor default).t)
      (initScan (runOps (buildTape flat) ops).numClauses
        (((runOps (buildTape flat) ops).tapes.getD
          (runOps (buildTape flat) ops).cursor default).t))
      hok hpw (initScan_StInv _ _)
  have hsrc := scanList_remap_src fn
    (((runOps (buildTape flat) ops).tapes.getD
      (runOps (buildTape flat) ops).cursor default).t)
    (((runOps (buildTape flat) ops).tapes.getD
      (runOps (buildTape flat) ops).cursor default).t)
    (initScan (runOps (buildTape flat) ops).numClauses
      (((runOps (buildTape flat) ops).tapes.getD
        (runOps (buildTape flat) ops).cursor default).t))
    (fun c hc => hc)
    (fun x => Or.inl (by
      simp only [rm, initScan]
      exact getD_replicate_self _ x 0))
  refine ⟨?_, hI1, ?_, ?_, ?_⟩
  · intro sub hsub c hc hnd
    obtain ⟨⟨_, hcl2⟩, _⟩ := hwf sub hsub
    obtain ⟨_, hops2⟩ := hcl2 c hc
    obtain ⟨ha, hb⟩ := hops2 hnd
    constructor
    · rcases ha with h | h
      · exact Or.inl h
      · exact Or.inr h.1
    · rcases hb with h | h
      · exact Or.inl h
      · exact Or.inr h.1
  · intro x hx
    rcases hsrc x with h | h
    · exact absurd h hx
    · exact h
  · intro x fuel hf
    exact (remapChain_spec _ hI1 x).1 fuel hf
  · intro x
    exact (remapChain_spec _ hI1 x).2

/-- Witness for C10 on the demo tape with a KEEP_BOTH classifier:
instantiate the chain-termination facts at x = 3. -/
theorem remap_chain_terminates_witness :
    remapChain (scanList keepBothFn
      (initScan (runOps (buildTape demoFlat) []).numClauses
        ((runOps (buildTape demoFlat) []).tapes.getD
          (runOps (buildTape demoFlat) []).cursor default).t)
      ((runOps (buildTape demoFlat) []).tapes.getD
        (runOps (buildTape demoFlat) []).cursor default).t).remap 5 3 =
    remapChain (scanList keepBothFn
      (initScan (runOps (buildTape demoFlat) []).numClauses
        ((runOps (buildTape demoFlat) []).tapes.getD
          (runOps (buildTape demoFlat) []).cursor default).t)
      ((runOps (buildTape demoFlat) []).tapes.getD
        (runOps (buildTape demoFlat) []).cursor default).t).remap 3 3 :=
  (remap_chain_terminates demoFlat [] keepBothFn topoFlat_demoFlat
    (fun o ho => absurd ho (List.not_mem_nil o))
    (fun op i a b _ => Or.inl rfl)).2.2.2.1 3 5 (by omega)

/-- C9: the single-threaded index-assignment walk threads a monotonically
increasing counter that starts at 1 through the tree; each leaf subspace
index is either a reused nonzero index or fresh from the counter; the fresh
indices are exactly the contiguous block [1, final counter), hence distinct
and dense, and 0 is never assigned. -/
theorem assign_indices_fresh (t : SNode) :
    1 ≤ (assignIndices t).2 ∧
    freshNode t 1 = List.range' 1 ((assignIndices t).2 - 1) ∧
    (freshNode t 1).Nodup ∧
    (∀ x ∈ allIndices (assignIndices t).1,
      x ∈ freshNode t 1 ∨ (x ∈ allIndices t ∧ x ≠ 0)) ∧
    (∀ x ∈ freshNode t 1, 1 ≤ x ∧ x < (assignIndices t).2) := by
  obtain ⟨h1, h2, h3⟩ := assignNode_spec t 1
  have hsub : (assignIndices t).2 - 1 = (freshNode t 1).length := by
    simp only [assignIndices, h1]
    omega
  refine ⟨by simp only [assignIndices, h1]; omega, by rw [hsub]; exact h2, ?_, h3, ?_⟩
  · rw [h2]; exact List.nodup_range' _ _
  · intro x hx
    rw [h2] at hx
    have := List.mem_range'_1.mp hx
    simp only [assignIndices, h1]
    omega

end Kernel
